import Mathlib

/-!
# NopResource controller: time-triggered condition selection

A shallow embedding of `external.Observe` from
`internal/controller/nopresource/nopresource.go`, together with the library
routines it calls (`time.ParseDuration`, `time.Duration.Seconds`,
`meta.WasDeleted`, `ConditionedStatus.SetConditions`).

Conventions of the embedding:

* a `time.Duration` is an `Int` number of nanoseconds (an `int64` in the code);
* a `float64` is the rational number it denotes, kept as a fraction of naturals,
  and every floating-point operation is the exact result rounded to the nearest
  binary64 number, ties to even (`roundQ`); all values met here lie far inside
  the exponent range of binary64, so the range is not modelled;
* `int` is 64 bits wide, so `int(x)` and `time.Duration(x)` of a `float64` are
  the same truncation toward zero;
* the clock is an input: `since i` is the reading of
  `time.Since(startTime.Time)` in the iteration of index `i` of the selection
  loop, and `now` the reading of `metav1.Now()`;
* output written with `fmt.Printf` is not part of the state and is left out.
-/

namespace Nopresource

/-! ## Binary64 arithmetic -/

/-- The quotient `n / d` rounded to the nearest integer, ties going to the even
one. -/
def rne (n d : Nat) : Nat :=
  if 2 * (n % d) < d then n / d
  else if d < 2 * (n % d) then n / d + 1
  else if (n / d) % 2 = 0 then n / d else n / d + 1

/-- The floor of the binary logarithm, by at most `fuel` halvings. -/
def log2Fuel : Nat → Nat → Nat
  | 0, _ => 0
  | fuel + 1, n => if n < 2 then 0 else log2Fuel fuel (n / 2) + 1

/-- The floor of the binary logarithm of `n` (0 for `n = 0`). -/
def ilog2 (n : Nat) : Nat := log2Fuel n n

/-- The binade of a quotient below one: the least `t` with `d ≤ n * 2^t`. -/
def negExp (n d : Nat) : Nat :=
  if d ≤ n * 2 ^ ilog2 (d / n) then ilog2 (d / n) else ilog2 (d / n) + 1

/-- The binary64 number nearest to `n / d`, ties to even, as a fraction whose
denominator is a power of two: with `2^e ≤ n/d < 2^(e+1)`, the quotient is
scaled by `2^(52-e)` into `[2^52, 2^53)`, rounded to an integer and scaled
back. -/
def roundQ (n d : Nat) : Nat × Nat :=
  if n = 0 then (0, 1)
  else if d ≤ n then
    if ilog2 (n / d) ≤ 52 then
      (rne (n * 2 ^ (52 - ilog2 (n / d))) d, 2 ^ (52 - ilog2 (n / d)))
    else (rne n (d * 2 ^ (ilog2 (n / d) - 52)) * 2 ^ (ilog2 (n / d) - 52), 1)
  else (rne (n * 2 ^ (52 + negExp n d)) d, 2 ^ (52 + negExp n d))

/-- The rational value of a fraction of naturals. -/
def val (p : Nat × Nat) : ℚ := (p.1 : ℚ) / (p.2 : ℚ)

/-! ## Durations (`time` package) -/

/-- A `time.Duration`: a signed count of nanoseconds. -/
abbrev Duration := Int

/-- The constant `time.Second`, in nanoseconds. -/
def Second : Int := 1000000000

/-- Method `Duration.Seconds` on a duration of `a ≥ 0` nanoseconds:
`sec := d / Second; nsec := d % Second; return float64(sec) + float64(nsec)/1e9`.
The conversions `float64(sec)`, `float64(nsec)` are exact (`sec < 2^34`,
`nsec < 2^30` for an `int64`), the division and the sum are rounded. On a
negative duration `sec` and `nsec` are both negative and the value is the
opposite. -/
def Seconds (a : Nat) : Nat × Nat :=
  roundQ (a / 1000000000 * (roundQ (a % 1000000000) 1000000000).2 +
      (roundQ (a % 1000000000) 1000000000).1)
    (roundQ (a % 1000000000) 1000000000).2

/-- The whole seconds obtained by `time.Duration(d.Seconds())` and
`int(d.Seconds())`: the `float64` value of `d.Seconds()`, truncated toward
zero. -/
def truncSeconds (d : Int) : Int :=
  if 0 ≤ d then (((Seconds d.natAbs).1 / (Seconds d.natAbs).2 : Nat) : Int)
  else -(((Seconds d.natAbs).1 / (Seconds d.natAbs).2 : Nat) : Int)

/-- The fraction of a unit in `ParseDuration`:
`uint64(float64(f) * (float64(unit) / scale))`. The conversion of `f`, the
division and the product are rounded; `float64(unit)` and `scale` (a power of
ten up to `10^19`) are exact. -/
def fractionNanos (f unit scale : Nat) : Nat :=
  (roundQ ((roundQ f 1).1 * (roundQ unit scale).1)
      ((roundQ f 1).2 * (roundQ unit scale).2)).1 /
    (roundQ ((roundQ f 1).1 * (roundQ unit scale).1)
      ((roundQ f 1).2 * (roundQ unit scale).2)).2

/-- The table `unitMap` of `time/format.go`: nanoseconds per unit. -/
def unitMap : List Char → Option Nat
  | ['n', 's'] => some 1
  | ['u', 's'] => some 1000
  | ['µ', 's'] => some 1000
  | ['μ', 's'] => some 1000
  | ['m', 's'] => some 1000000
  | ['s'] => some 1000000000
  | ['m'] => some 60000000000
  | ['h'] => some 3600000000000
  | _ => none

/-- The helper `leadingInt` of `time/format.go`: consumes the leading `[0-9]*`
of `s`, starting from the accumulator `x`; `none` is `errLeadingInt`
(overflow past `1<<63`). -/
def leadingInt : List Char → Nat → Option (Nat × List Char)
  | [], x => some (x, [])
  | c :: cs, x =>
    if c < '0' ∨ c > '9' then some (x, c :: cs)
    else if x > 2 ^ 63 / 10 then none
    else
      let x' := x * 10 + (c.toNat - 48)
      if x' > 2 ^ 63 then none else leadingInt cs x'

/-- The helper `leadingFraction` of `time/format.go`: consumes the leading
`[0-9]*` of `s` and returns the digits read as `x` with `scale = 10^digits`;
digits past an overflow are skipped. -/
def leadingFraction : List Char → Nat → Nat → Bool → Nat × Nat × List Char
  | [], x, scale, _ => (x, scale, [])
  | c :: cs, x, scale, overflow =>
    if c < '0' ∨ c > '9' then (x, scale, c :: cs)
    else if overflow then leadingFraction cs x scale true
    else if x > (2 ^ 63 - 1) / 10 then leadingFraction cs x scale true
    else
      let y := x * 10 + (c.toNat - 48)
      if y > 2 ^ 63 then leadingFraction cs x scale true
      else leadingFraction cs y (scale * 10) false

/-- The unit scan of `ParseDuration`: splits `s` at the first `.` or digit. -/
def spanUnit : List Char → List Char × List Char
  | [] => ([], [])
  | c :: cs =>
    if c = '.' ∨ ('0' ≤ c ∧ c ≤ '9') then ([], c :: cs)
    else ((spanUnit cs).1.cons c, (spanUnit cs).2)

/-- The step "Consume (\.[0-9]*)?" of `ParseDuration`: the fraction digits `f`,
their `scale`, the rest of the text, and the flag `post` (a digit was read after
the period). Without a period, `f = 0`, `scale = 1` and nothing is consumed. -/
def fractionPart (s : List Char) : Nat × Nat × List Char × Bool :=
  match s with
  | '.' :: s2 =>
    ((leadingFraction s2 0 1 false).1, (leadingFraction s2 0 1 false).2.1,
      (leadingFraction s2 0 1 false).2.2,
      decide (s2.length ≠ (leadingFraction s2 0 1 false).2.2.length))
  | _ => (0, 1, s, false)

/-- The main loop `for s != ""` of `time.ParseDuration`, accumulating into `d`.
Every round consumes at least the unit, so `fuel > s.length` rounds are enough
(`parseLoop_fuel`); the outer `none` is the loop running out of fuel. -/
def parseLoop : Nat → List Char → Nat → Option (Except String Nat)
  | 0, _, _ => none
  | fuel + 1, s, d =>
    match s with
    | [] => some (.ok d)
    | c0 :: _ =>
      -- The next character must be [0-9.]
      if ¬ (c0 = '.' ∨ ('0' ≤ c0 ∧ c0 ≤ '9')) then some (.error "time: invalid duration")
      else
        match leadingInt s 0 with
        | none => some (.error "time: invalid duration")
        | some (v, s1) =>
          let pre := decide (s.length ≠ s1.length)
          let f := (fractionPart s1).1
          let scale := (fractionPart s1).2.1
          let s3 := (fractionPart s1).2.2.1
          let post := (fractionPart s1).2.2.2
          if ¬ pre ∧ ¬ post then some (.error "time: invalid duration")
          else
            let u := (spanUnit s3).1
            let s4 := (spanUnit s3).2
            if u = [] then some (.error "time: missing unit in duration")
            else
              match unitMap u with
              | none => some (.error "time: unknown unit in duration")
              | some unit =>
                if v > 2 ^ 63 / unit then some (.error "time: invalid duration")
                else
                  let v1 := v * unit
                  let v2 := if f > 0 then v1 + fractionNanos f unit scale else v1
                  if f > 0 ∧ v2 > 2 ^ 63 then some (.error "time: invalid duration")
                  else
                    -- d += v, in uint64
                    let d1 := (d + v2) % 2 ^ 64
                    if d1 > 2 ^ 63 then some (.error "time: invalid duration")
                    else parseLoop fuel s4 d1

/-- The body of `time.ParseDuration` on `[-+]?([0-9]*(\.[0-9]*)?[a-z]+)+`:
the parsed duration or the error. -/
def parseDurationCore (s : List Char) : Except String Duration :=
  let neg : Bool := match s with
    | '-' :: _ => true
    | _ => false
  let s1 : List Char := match s with
    | '-' :: t => t
    | '+' :: t => t
    | _ => s
  -- Special case: if all that is left is "0", this is zero.
  if s1 = ['0'] then .ok 0
  else if s1 = [] then .error "time: invalid duration"
  else
    match parseLoop (s1.length + 1) s1 0 with
    | none => .error "time: invalid duration"
    | some (.error e) => .error e
    | some (.ok d) =>
      if neg then .ok (-(d : Int))
      else if d > 2 ^ 63 - 1 then .error "time: invalid duration"
      else .ok (d : Int)

/-- The function `time.ParseDuration`: the pair `(Duration, error)` it returns.
Every error return of the library is `return 0, err`. -/
def ParseDuration (s : String) : Int × Option String :=
  match parseDurationCore s.toList with
  | .ok d => (d, none)
  | .error e => (0, some e)

/-! ## The resource and its conditions -/

/-- A `metav1.Time`, as an offset from the zero instant `time.Time{}`. -/
abbrev Time := Int

/-- Modelled from the spec: the declaration of `v1alpha1.ResourceConditionAfter`
(package `apis/sample/v1alpha1`) is not among the sources; the fields are those
read by `Observe` and written by the test: the duration text, the condition
type and the condition status of one timed rule. -/
structure ResourceConditionAfter where
  Time : String
  ConditionType : String
  ConditionStatus : String
deriving DecidableEq, Repr

/-- A `Condition` of crossplane-runtime (`apis/common/v1`); the field `Type` is
spelled `Typ`. -/
structure Condition where
  Typ : String
  Status : String
  LastTransitionTime : Time
  Reason : String
  Message : String
deriving DecidableEq, Repr

/-- The constant `ReasonAvailable`. -/
def ReasonAvailable : String := "Available"

/-- Method `Condition.Equal`: identical, ignoring the `LastTransitionTime`. -/
def Condition.Equal (c other : Condition) : Bool :=
  c.Typ = other.Typ ∧ c.Status = other.Status ∧ c.Reason = other.Reason ∧
    c.Message = other.Message

/-- The loop `for i, existing := range s.Conditions` of `SetConditions` for one
supplied condition `new`: the updated slice and the flag `exists`. -/
def setLoop (new : Condition) : List Condition → List Condition × Bool
  | [] => ([], false)
  | existing :: rest =>
    if existing.Typ ≠ new.Typ then (existing :: (setLoop new rest).1, (setLoop new rest).2)
    else if existing.Equal new then (existing :: (setLoop new rest).1, true)
    else (new :: (setLoop new rest).1, true)

/-- Method `ConditionedStatus.SetConditions` with one supplied condition:
replaces the existing conditions of the same type (keeping those identical up
to the transition time) and appends the condition when the type is new. -/
def SetConditions (conditions : List Condition) (new : Condition) : List Condition :=
  if (setLoop new conditions).2 then (setLoop new conditions).1
  else (setLoop new conditions).1 ++ [new]

/-- Modelled from the spec: the declaration of `v1alpha1.NopResource` is not
among the sources; the fields are those `Observe` reads and writes:
`ObjectMeta.CreationTimestamp`, `ObjectMeta.DeletionTimestamp`,
`Spec.ForProvider.ConditionAfter` and `Status.Conditions`. -/
structure NopResource where
  CreationTimestamp : Time
  DeletionTimestamp : Option Time
  ConditionAfter : List ResourceConditionAfter
  Conditions : List Condition
deriving DecidableEq, Repr

/-- A `resource.Managed` handed to the controller: a `*v1alpha1.NopResource`
or a managed resource of another kind. -/
inductive Managed where
  | nop (cr : NopResource)
  | other (kind : String)
deriving DecidableEq, Repr

/-- The `Status.Conditions` of a managed resource (empty for a resource of
another kind, whose status the controller never touches). -/
def Managed.Conditions : Managed → List Condition
  | .nop cr => cr.Conditions
  | .other _ => []

/-- A condition without its `LastTransitionTime`: type, status, reason and
message. -/
def Condition.content (c : Condition) : String × String × String × String :=
  (c.Typ, c.Status, c.Reason, c.Message)

/-- The struct `managed.ExternalObservation`, with the fields `Observe` sets;
`ConnectionDetails` is `none` for a nil map. -/
structure ExternalObservation where
  ResourceExists : Bool
  ResourceUpToDate : Bool
  ConnectionDetails : Option (List (String × String))
deriving DecidableEq, Repr

/-- The message `errNotNopResource`. -/
def errNotNopResource : String := "managed resource is not a NopResource custom resource"

/-- The function `meta.WasDeleted`: `!o.GetDeletionTimestamp().IsZero()`, where
`IsZero` holds of a nil pointer and of the zero instant. -/
def WasDeleted (cr : NopResource) : Bool :=
  match cr.DeletionTimestamp with
  | none => false
  | some t => decide (t ≠ 0)

/-! ## `external.Observe` -/

/-- The parsed threshold of a rule: `elapsed, _ := time.ParseDuration(r.Time)`,
the error being dropped. -/
def threshold (r : ResourceConditionAfter) : Int := (ParseDuration r.Time).1

/-- The eligibility test of the selection loop:
`time.Duration(time.Since(startTime.Time).Seconds()) >= time.Duration(elapsed.Seconds())`,
with `since` the reading of `time.Since(startTime.Time)` in that test. -/
def eligible (r : ResourceConditionAfter) (since : Duration) : Bool :=
  decide (truncSeconds since ≥ truncSeconds (threshold r))

/-- The loop of "Logic 2" from index `i` on, over the remaining rules, with the
loop state `(l, mx)`; the iteration of index `i` reads the clock as `since i`. -/
def selectLoop (since : Nat → Duration) :
    List ResourceConditionAfter → Nat → Int × Int → Int × Int
  | [], _, st => st
  | r :: rest, i, (l, mx) =>
    if eligible r (since i) then
      if mx < truncSeconds (threshold r) then
        selectLoop since rest (i + 1) ((i : Int), truncSeconds (threshold r))
      else selectLoop since rest (i + 1) (l, mx)
    else selectLoop since rest (i + 1) (l, mx)

/-- The inline selection of `Observe`: the final value of `l`, starting from
`l := -1`, `mx := -1`. -/
def selectIndex (rules : List ResourceConditionAfter) (since : Nat → Duration) : Int :=
  (selectLoop since rules 0 (-1, -1)).1

/-- The block `if l != -1 { ... cr.Status.SetConditions(x) }`. -/
def applySelected (cr : NopResource) (l : Int) (now : Time) : NopResource :=
  if l ≠ -1 then
    match cr.ConditionAfter[l.toNat]? with
    | some r =>
      let x : Condition :=
        { Typ := r.ConditionType, Status := r.ConditionStatus,
          LastTransitionTime := now, Reason := ReasonAvailable, Message := "" }
      { cr with Conditions := SetConditions cr.Conditions x }
    | none => cr
  else cr

/-- Method `external.Observe`: the managed resource after the call, the
observation and the error. `since i` is the reading of
`time.Since(startTime.Time)` in the loop iteration of index `i` and `now` the
reading of `metav1.Now()`. -/
def Observe (mg : Managed) (since : Nat → Duration) (now : Time) :
    Managed × ExternalObservation × Option String :=
  match mg with
  | .other kind =>
    (.other kind, { ResourceExists := false, ResourceUpToDate := false,
                    ConnectionDetails := none }, some errNotNopResource)
  | .nop cr =>
    if WasDeleted cr then
      (.nop cr, { ResourceExists := false, ResourceUpToDate := false,
                  ConnectionDetails := none }, none)
    else
      (.nop (applySelected cr (selectIndex cr.ConditionAfter since) now),
        { ResourceExists := true, ResourceUpToDate := true, ConnectionDetails := some [] },
        none)

/-- A clock that reads the same elapsed time in every iteration. -/
def steady (elapsed : Duration) : Nat → Duration := fun _ => elapsed

/-- The rule list `c` of `TestReconcileLogic`. -/
def testRules : List ResourceConditionAfter :=
  [ { Time := "10s", ConditionType := "Ready", ConditionStatus := "False" },
    { Time := "5s", ConditionType := "Ready", ConditionStatus := "False" },
    { Time := "7s", ConditionType := "Ready", ConditionStatus := "True" },
    { Time := "5s", ConditionType := "Synced", ConditionStatus := "False" },
    { Time := "10s", ConditionType := "Synced", ConditionStatus := "True" },
    { Time := "2s", ConditionType := "Ready", ConditionStatus := "False" } ]

/-- A resource created at instant 0, not deleted, carrying the rules of the
test and no recorded condition. -/
def testResource : NopResource :=
  { CreationTimestamp := 0, DeletionTimestamp := none, ConditionAfter := testRules,
    Conditions := [] }

/-- Two rules of one condition type whose thresholds fall in the same whole
second, the later one being the greater. -/
def subSecondRules : List ResourceConditionAfter :=
  [ { Time := "1500ms", ConditionType := "Ready", ConditionStatus := "False" },
    { Time := "1900ms", ConditionType := "Ready", ConditionStatus := "True" } ]

/-- A rule with a threshold of half a second. -/
def halfSecondRule : ResourceConditionAfter :=
  { Time := "500ms", ConditionType := "Ready", ConditionStatus := "True" }

/-- The test resource with one recorded `Synced` condition. -/
def syncedResource : NopResource :=
  { CreationTimestamp := 0, DeletionTimestamp := none, ConditionAfter := testRules,
    Conditions := [⟨"Synced", "True", 3, "ReconcileSuccess", ""⟩] }

/-- A resource carrying a deletion timestamp. -/
def deletedResource : NopResource :=
  { CreationTimestamp := 0, DeletionTimestamp := some 5, ConditionAfter := testRules,
    Conditions := [⟨"Synced", "True", 3, "ReconcileSuccess", ""⟩] }

/-- A resource of which the second rule carries a duration text that does not
parse. -/
def malformedResource : NopResource :=
  { CreationTimestamp := 0, DeletionTimestamp := none,
    ConditionAfter :=
      [ { Time := "5s", ConditionType := "Ready", ConditionStatus := "True" },
        { Time := "ten seconds", ConditionType := "Synced", ConditionStatus := "True" } ],
    Conditions := [] }

/-- A rule whose threshold is one nanosecond short of 16777217 seconds. -/
def lateRule : ResourceConditionAfter :=
  { Time := "16777216999999999ns", ConditionType := "Ready", ConditionStatus := "True" }

/-- Two rules with the same threshold of seven seconds. -/
def sevenRules : List ResourceConditionAfter :=
  [ { Time := "7s", ConditionType := "Ready", ConditionStatus := "False" },
    { Time := "7s", ConditionType := "Ready", ConditionStatus := "True" } ]

/-- A clock that reads 6.9s in the first iteration of the loop and 7s in the
following ones. -/
def crossing : Nat → Duration := fun i => if i = 0 then 6900000000 else 7000000000

/-! ## Binary64 arithmetic: rounding is monotone and fixes binary64 numbers -/

/-- The binary logarithm by halving: `2^k ≤ n < 2^(k+1)`, given enough fuel. -/
theorem log2Fuel_spec : ∀ (fuel n : Nat), n ≤ fuel → 0 < n →
    2 ^ log2Fuel fuel n ≤ n ∧ n < 2 ^ (log2Fuel fuel n + 1) := by
  intro fuel
  induction fuel with
  | zero => intro n h1 h2; omega
  | succ f ih =>
    intro n h1 h2
    unfold log2Fuel
    split
    · simp; omega
    · have hn : 2 ≤ n := by omega
      have := ih (n / 2) (by omega) (by omega)
      obtain ⟨a, b⟩ := this
      constructor
      · rw [pow_succ]; omega
      · rw [pow_succ]; omega

/-- The binary logarithm: `2^k ≤ n < 2^(k+1)`. -/
theorem ilog2_spec (n : Nat) (h : 0 < n) : 2 ^ ilog2 n ≤ n ∧ n < 2 ^ (ilog2 n + 1) :=
  log2Fuel_spec n n (le_refl n) h

/-- The two outcomes of rounding a quotient to the nearest integer. -/
theorem rne_cases (n d : Nat) :
    (rne n d = n / d ∧ (2 * (n % d) < d ∨ (2 * (n % d) = d ∧ (n / d) % 2 = 0))) ∨
    (rne n d = n / d + 1 ∧ (d < 2 * (n % d) ∨ (2 * (n % d) = d ∧ (n / d) % 2 = 1))) := by
  unfold rne
  split
  · left; exact ⟨rfl, Or.inl ‹_›⟩
  · split
    · right; exact ⟨rfl, Or.inl ‹_›⟩
    · split
      · left; exact ⟨rfl, Or.inr ⟨by omega, ‹_›⟩⟩
      · right; exact ⟨rfl, Or.inr ⟨by omega, by omega⟩⟩

/-- Rounding to the nearest integer: within one half, a tie giving an even
result. -/
theorem rne_spec (n d : Nat) (hd : 0 < d) :
    ((rne n d : ℚ) - 1 / 2 ≤ (n : ℚ) / d) ∧ ((n : ℚ) / d ≤ (rne n d : ℚ) + 1 / 2) ∧
    ((n : ℚ) / d = (rne n d : ℚ) - 1 / 2 → rne n d % 2 = 0) ∧
    ((n : ℚ) / d = (rne n d : ℚ) + 1 / 2 → rne n d % 2 = 0) := by
  have hdq : (0 : ℚ) < d := by exact_mod_cast hd
  have hdiv : (n : ℚ) = (d : ℚ) * ((n / d : Nat) : ℚ) + ((n % d : Nat) : ℚ) := by
    exact_mod_cast (Nat.div_add_mod n d).symm
  have hmod : ((n % d : Nat) : ℚ) < d := by exact_mod_cast Nat.mod_lt n hd
  have hq : (n : ℚ) / d = ((n / d : Nat) : ℚ) + ((n % d : Nat) : ℚ) / d := by
    rw [hdiv]; field_simp; ring
  rcases rne_cases n d with ⟨h1, h2⟩ | ⟨h1, h2⟩
  · rw [h1, hq]
    have hr : ((n % d : Nat) : ℚ) / d ≤ 1 / 2 := by
      rw [div_le_div_iff₀ hdq (by norm_num)]
      have : 2 * (n % d) ≤ d := by omega
      have : (2 : ℚ) * ((n % d : Nat) : ℚ) ≤ d := by exact_mod_cast this
      linarith
    have hr0 : (0 : ℚ) ≤ ((n % d : Nat) : ℚ) / d := by positivity
    refine ⟨by linarith, by linarith, ?_, ?_⟩
    · intro h; linarith
    · intro h
      have h3 : ((n % d : Nat) : ℚ) / d = 1 / 2 := by linarith
      rw [div_eq_div_iff (ne_of_gt hdq) (by norm_num)] at h3
      have h4 : (n % d) * 2 = 1 * d := by exact_mod_cast h3
      rcases h2 with h2 | h2
      · omega
      · exact h2.2
  · rw [h1, hq]
    have hr : (1 : ℚ) / 2 ≤ ((n % d : Nat) : ℚ) / d := by
      rw [div_le_div_iff₀ (by norm_num) hdq]
      have : d ≤ 2 * (n % d) := by omega
      have : (d : ℚ) ≤ (2 : ℚ) * ((n % d : Nat) : ℚ) := by exact_mod_cast this
      linarith
    have hr1 : ((n % d : Nat) : ℚ) / d < 1 := by
      rw [div_lt_one hdq]; exact hmod
    push_cast
    refine ⟨by linarith, by linarith, ?_, ?_⟩
    · intro h
      have h3 : ((n % d : Nat) : ℚ) / d = 1 / 2 := by linarith
      rw [div_eq_div_iff (ne_of_gt hdq) (by norm_num)] at h3
      have h4 : (n % d) * 2 = 1 * d := by exact_mod_cast h3
      rcases h2 with h2 | h2
      · omega
      · omega
    · intro h; linarith

/-- Rounding to the nearest integer, ties to even, is monotone. -/
theorem rne_mono (n1 d1 n2 d2 : Nat) (h1 : 0 < d1) (h2 : 0 < d2)
    (h : (n1 : ℚ) / d1 ≤ (n2 : ℚ) / d2) : rne n1 d1 ≤ rne n2 d2 := by
  obtain ⟨a1, a2, a3, a4⟩ := rne_spec n1 d1 h1
  obtain ⟨b1, b2, b3, b4⟩ := rne_spec n2 d2 h2
  by_contra hlt
  have hlt' : rne n2 d2 + 1 ≤ rne n1 d1 := by omega
  have hq : (rne n2 d2 : ℚ) + 1 ≤ (rne n1 d1 : ℚ) := by exact_mod_cast hlt'
  have e1 : (n1 : ℚ) / d1 = (rne n1 d1 : ℚ) - 1 / 2 := by linarith
  have e2 : (n2 : ℚ) / d2 = (rne n2 d2 : ℚ) + 1 / 2 := by linarith
  have e3 : (rne n1 d1 : ℚ) = (rne n2 d2 : ℚ) + 1 := by linarith
  have e4 : rne n1 d1 = rne n2 d2 + 1 := by exact_mod_cast e3
  have := a3 e1
  have := b4 e2
  omega

/-- A quotient that is an integer rounds to itself. -/
theorem rne_of_int (n d k : Nat) (hd : 0 < d) (h : (n : ℚ) / d = k) : rne n d = k := by
  obtain ⟨a1, a2, _, _⟩ := rne_spec n d hd
  rw [h] at a1 a2
  have h1 : (rne n d : ℚ) < (k : ℚ) + 1 := by linarith
  have h2 : (k : ℚ) < (rne n d : ℚ) + 1 := by linarith
  have h3 : rne n d < k + 1 := by exact_mod_cast h1
  have h4 : k < rne n d + 1 := by exact_mod_cast h2
  omega

/-- The denominator of a rounded quotient is positive. -/
theorem roundQ_den_pos (n d : Nat) : 0 < (roundQ n d).2 := by
  unfold roundQ
  split
  · simp
  · split
    · split
      · simp
      · simp
    · simp

/-- The binade of a quotient below one: `2^(-t) ≤ n/d < 2^(1-t)`. -/
theorem negExp_spec (n d : Nat) (hn : 0 < n) (hnd : n < d) :
    n * 2 ^ negExp n d < 2 * d ∧ d ≤ n * 2 ^ negExp n d := by
  have hq : 0 < d / n := Nat.div_pos (le_of_lt hnd) hn
  obtain ⟨h1, h2⟩ := ilog2_spec (d / n) hq
  have h3 : n * 2 ^ ilog2 (d / n) ≤ d := by
    calc n * 2 ^ ilog2 (d / n) ≤ n * (d / n) := Nat.mul_le_mul_left n h1
      _ ≤ d := Nat.mul_div_le d n
  have h4 : d < n * 2 ^ (ilog2 (d / n) + 1) := by
    have : d / n + 1 ≤ 2 ^ (ilog2 (d / n) + 1) := h2
    calc d < n * (d / n + 1) := Nat.lt_mul_div_succ d hn
      _ ≤ n * 2 ^ (ilog2 (d / n) + 1) := Nat.mul_le_mul_left n this
  unfold negExp
  split
  · next h => constructor <;> omega
  · next h =>
    constructor
    · rw [pow_succ]; rw [← Nat.mul_assoc]; omega
    · exact le_of_lt h4

/-- The shape of a rounded quotient: a binade `P = 2^e` with `P ≤ n/d < 2P`,
and the quotient scaled into `[2^52, 2^53)` and rounded to an integer. -/
theorem roundQ_struct (n d : Nat) (hn : 0 < n) (hd : 0 < d) :
    ∃ (e : ℤ) (n' d' : Nat), 0 < d' ∧ (2 : ℚ) ^ e ≤ (n : ℚ) / d ∧
      (n : ℚ) / d < 2 * (2 : ℚ) ^ e ∧
      (n' : ℚ) / d' = (n : ℚ) / d * 2 ^ 52 / (2 : ℚ) ^ e ∧
      val (roundQ n d) = (rne n' d' : ℚ) * (2 : ℚ) ^ e / 2 ^ 52 := by
  have hdq : (0 : ℚ) < d := by exact_mod_cast hd
  have hnq : (0 : ℚ) < n := by exact_mod_cast hn
  have hn0 : n ≠ 0 := by omega
  by_cases hdn : d ≤ n
  · have hq : 0 < n / d := Nat.div_pos hdn hd
    obtain ⟨h1, h2⟩ := ilog2_spec (n / d) hq
    -- bounds in the rationals
    have b1 : (2 : ℚ) ^ ilog2 (n / d) ≤ (n : ℚ) / d := by
      rw [le_div_iff₀ hdq]
      have : 2 ^ ilog2 (n / d) * d ≤ n := by
        calc 2 ^ ilog2 (n / d) * d ≤ (n / d) * d := Nat.mul_le_mul_right d h1
          _ ≤ n := Nat.div_mul_le_self n d
      exact_mod_cast this
    have b2 : (n : ℚ) / d < 2 * (2 : ℚ) ^ ilog2 (n / d) := by
      rw [div_lt_iff₀ hdq]
      have h3 : n / d + 1 ≤ 2 ^ (ilog2 (n / d) + 1) := h2
      have : n < 2 * 2 ^ ilog2 (n / d) * d := by
        calc n < (n / d + 1) * d := by
              rw [Nat.mul_comm]; exact Nat.lt_mul_div_succ n hd
          _ ≤ 2 ^ (ilog2 (n / d) + 1) * d := Nat.mul_le_mul_right d h3
          _ = 2 * 2 ^ ilog2 (n / d) * d := by rw [pow_succ]; ring
      exact_mod_cast this
    by_cases hk : ilog2 (n / d) ≤ 52
    · refine ⟨(ilog2 (n / d) : ℤ), n * 2 ^ (52 - ilog2 (n / d)), d, hd, ?_, ?_, ?_, ?_⟩
      · rw [zpow_natCast]; exact b1
      · rw [zpow_natCast]; exact b2
      · rw [zpow_natCast]
        have hp : (2 : ℚ) ^ 52 = 2 ^ (52 - ilog2 (n / d)) * 2 ^ ilog2 (n / d) := by
          rw [← pow_add]; congr 1; omega
        rw [hp]; push_cast; field_simp; ring
      · rw [zpow_natCast]
        have hp : (2 : ℚ) ^ 52 = 2 ^ (52 - ilog2 (n / d)) * 2 ^ ilog2 (n / d) := by
          rw [← pow_add]; congr 1; omega
        simp only [roundQ, hn0, hdn, hk, if_true, if_false, val]
        rw [hp]; push_cast; field_simp; ring
    · refine ⟨(ilog2 (n / d) : ℤ), n, d * 2 ^ (ilog2 (n / d) - 52), by positivity, ?_, ?_, ?_, ?_⟩
      · rw [zpow_natCast]; exact b1
      · rw [zpow_natCast]; exact b2
      · rw [zpow_natCast]
        have hp : (2 : ℚ) ^ ilog2 (n / d) = 2 ^ (ilog2 (n / d) - 52) * 2 ^ 52 := by
          rw [← pow_add]; congr 1; omega
        rw [hp]; push_cast; field_simp; ring
      · rw [zpow_natCast]
        have hp : (2 : ℚ) ^ ilog2 (n / d) = 2 ^ (ilog2 (n / d) - 52) * 2 ^ 52 := by
          rw [← pow_add]; congr 1; omega
        simp only [roundQ, hn0, hdn, hk, if_true, if_false, val]
        rw [hp]; push_cast; field_simp; ring
  · have hnd : n < d := by omega
    obtain ⟨h1, h2⟩ := negExp_spec n d hn hnd
    have hP : (2 : ℚ) ^ (-(negExp n d : ℤ)) = 1 / 2 ^ negExp n d := by
      rw [zpow_neg, zpow_natCast]; simp
    have hpos : (0 : ℚ) < 2 ^ negExp n d := by positivity
    refine ⟨-(negExp n d : ℤ), n * 2 ^ (52 + negExp n d), d, hd, ?_, ?_, ?_, ?_⟩
    · rw [hP, div_le_div_iff₀ hpos hdq]
      have : (d : ℚ) ≤ n * 2 ^ negExp n d := by exact_mod_cast h2
      linarith
    · rw [hP, div_lt_iff₀ hdq]
      have : (n : ℚ) * 2 ^ negExp n d < 2 * d := by exact_mod_cast h1
      have e : 2 * (1 / (2 : ℚ) ^ negExp n d) * d = (2 * d) / 2 ^ negExp n d := by
        field_simp
      rw [e, lt_div_iff₀ hpos]; exact this
    · rw [hP, pow_add]; push_cast; field_simp; ring
    · simp only [roundQ, hn0, hdn, if_false, val]
      rw [hP, pow_add]; push_cast
      have h52 : (0 : ℚ) < 2 ^ 52 := by positivity
      rw [div_eq_div_iff (by positivity) (by positivity)]
      field_simp; ring


/-- Zero rounds to zero. -/
theorem roundQ_zero (d : Nat) : val (roundQ 0 d) = 0 := by
  simp [roundQ, val]

/-- A fraction of naturals is not negative. -/
theorem val_nonneg (p : Nat × Nat) : 0 ≤ val p := by
  unfold val; positivity

/-- A quotient in `[2^52, 2^53]` rounds to an integer in `[2^52, 2^53]`. -/
theorem rne_binade (n d : Nat) (hd : 0 < d) (h1 : (2 : ℚ) ^ 52 ≤ (n : ℚ) / d)
    (h2 : (n : ℚ) / d ≤ 2 ^ 53) : 2 ^ 52 ≤ rne n d ∧ rne n d ≤ 2 ^ 53 := by
  constructor
  · have h := rne_mono (2 ^ 52) 1 n d (by norm_num) hd (by simpa using h1)
    rwa [rne_of_int (2 ^ 52) 1 (2 ^ 52) (by norm_num) (by simp)] at h
  · have h := rne_mono n d (2 ^ 53) 1 hd (by norm_num) (by simpa using h2)
    rwa [rne_of_int (2 ^ 53) 1 (2 ^ 53) (by norm_num) (by simp)] at h

/-- Rounding to binary64 is monotone. -/
theorem roundQ_mono (n1 d1 n2 d2 : Nat) (h1 : 0 < d1) (h2 : 0 < d2)
    (h : (n1 : ℚ) / d1 ≤ (n2 : ℚ) / d2) : val (roundQ n1 d1) ≤ val (roundQ n2 d2) := by
  have hd1 : (0 : ℚ) < d1 := by exact_mod_cast h1
  have hd2 : (0 : ℚ) < d2 := by exact_mod_cast h2
  by_cases hn1 : n1 = 0
  · rw [hn1, roundQ_zero]; exact val_nonneg _
  have hn1' : 0 < n1 := by omega
  have hn2' : 0 < n2 := by
    by_contra h0
    have : n2 = 0 := by omega
    rw [this] at h
    have : (0 : ℚ) < (n1 : ℚ) / d1 := by
      have : (0 : ℚ) < n1 := by exact_mod_cast hn1'
      positivity
    simp at h
    linarith
  obtain ⟨e1, a1, b1, hb1, l1, u1, s1, v1⟩ := roundQ_struct n1 d1 hn1' h1
  obtain ⟨e2, a2, b2, hb2, l2, u2, s2, v2⟩ := roundQ_struct n2 d2 hn2' h2
  have hP1 : (0 : ℚ) < (2 : ℚ) ^ e1 := by positivity
  have hP2 : (0 : ℚ) < (2 : ℚ) ^ e2 := by positivity
  have h52 : (0 : ℚ) < 2 ^ 52 := by positivity
  have h53 : (2 : ℚ) ^ 53 = 2 * 2 ^ 52 := by norm_num
  -- the scaled quotients lie in [2^52, 2^53)
  have r1 : (2 : ℚ) ^ 52 ≤ (a1 : ℚ) / b1 ∧ (a1 : ℚ) / b1 ≤ 2 ^ 53 := by
    rw [s1]
    constructor
    · rw [le_div_iff₀ hP1, mul_comm]
      exact mul_le_mul_of_nonneg_right l1 (le_of_lt h52)
    · rw [div_le_iff₀ hP1, h53]
      calc (n1 : ℚ) / d1 * 2 ^ 52 ≤ 2 * (2 : ℚ) ^ e1 * 2 ^ 52 :=
            mul_le_mul_of_nonneg_right (le_of_lt u1) (le_of_lt h52)
        _ = 2 * 2 ^ 52 * (2 : ℚ) ^ e1 := by ring
  have r2 : (2 : ℚ) ^ 52 ≤ (a2 : ℚ) / b2 ∧ (a2 : ℚ) / b2 ≤ 2 ^ 53 := by
    rw [s2]
    constructor
    · rw [le_div_iff₀ hP2, mul_comm]
      exact mul_le_mul_of_nonneg_right l2 (le_of_lt h52)
    · rw [div_le_iff₀ hP2, h53]
      calc (n2 : ℚ) / d2 * 2 ^ 52 ≤ 2 * (2 : ℚ) ^ e2 * 2 ^ 52 :=
            mul_le_mul_of_nonneg_right (le_of_lt u2) (le_of_lt h52)
        _ = 2 * 2 ^ 52 * (2 : ℚ) ^ e2 := by ring
  obtain ⟨m1l, m1u⟩ := rne_binade a1 b1 hb1 r1.1 r1.2
  obtain ⟨m2l, m2u⟩ := rne_binade a2 b2 hb2 r2.1 r2.2
  have m1u' : (rne a1 b1 : ℚ) ≤ 2 * 2 ^ 52 := by
    rw [← h53]; exact_mod_cast m1u
  have m2l' : (2 : ℚ) ^ 52 ≤ (rne a2 b2 : ℚ) := by exact_mod_cast m2l
  rw [v1, v2]
  rcases lt_trichotomy e1 e2 with hlt | heq | hgt
  · -- a lower binade: the rounded values are separated by `2^e2`
    have hstep : 2 * (2 : ℚ) ^ e1 ≤ (2 : ℚ) ^ e2 := by
      have : (2 : ℚ) ^ (e1 + 1) ≤ (2 : ℚ) ^ e2 :=
        zpow_le_zpow_right₀ (by norm_num) (by omega)
      rw [zpow_add_one₀ (by norm_num)] at this
      linarith
    have c1 : (rne a1 b1 : ℚ) * (2 : ℚ) ^ e1 / 2 ^ 52 ≤ 2 * (2 : ℚ) ^ e1 := by
      rw [div_le_iff₀ h52]
      calc (rne a1 b1 : ℚ) * (2 : ℚ) ^ e1 ≤ 2 * 2 ^ 52 * (2 : ℚ) ^ e1 :=
            mul_le_mul_of_nonneg_right m1u' (le_of_lt hP1)
        _ = 2 * (2 : ℚ) ^ e1 * 2 ^ 52 := by ring
    have c2 : (2 : ℚ) ^ e2 ≤ (rne a2 b2 : ℚ) * (2 : ℚ) ^ e2 / 2 ^ 52 := by
      rw [le_div_iff₀ h52, mul_comm]
      exact mul_le_mul_of_nonneg_right m2l' (le_of_lt hP2)
    exact le_trans c1 (le_trans hstep c2)
  · -- the same binade: rounding to an integer is monotone
    rw [heq] at s1 ⊢
    have hs : (a1 : ℚ) / b1 ≤ (a2 : ℚ) / b2 := by
      rw [s1, s2]
      apply div_le_div_of_nonneg_right _ (le_of_lt hP2)
      exact mul_le_mul_of_nonneg_right h (le_of_lt h52)
    have hm := rne_mono a1 b1 a2 b2 hb1 hb2 hs
    have hm' : (rne a1 b1 : ℚ) ≤ (rne a2 b2 : ℚ) := by exact_mod_cast hm
    apply div_le_div_of_nonneg_right _ (le_of_lt h52)
    exact mul_le_mul_of_nonneg_right hm' (le_of_lt hP2)
  · -- impossible: the quotients are ordered the other way
    exfalso
    have hstep : 2 * (2 : ℚ) ^ e2 ≤ (2 : ℚ) ^ e1 := by
      have : (2 : ℚ) ^ (e2 + 1) ≤ (2 : ℚ) ^ e1 :=
        zpow_le_zpow_right₀ (by norm_num) (by omega)
      rw [zpow_add_one₀ (by norm_num)] at this
      linarith
    linarith

/-- A dyadic number with a numerator below `2^53` is a binary64 number: rounding
returns it. -/
theorem roundQ_fix (k j : Nat) (hk : 0 < k) (hk2 : k < 2 ^ 53) :
    val (roundQ k (2 ^ j)) = (k : ℚ) / 2 ^ j := by
  obtain ⟨e, a, b, hb, l, u, sc, v⟩ := roundQ_struct k (2 ^ j) hk (by positivity)
  have h2 : (2 : ℚ) ≠ 0 := by norm_num
  have hq : ((k : ℚ) / ((2 ^ j : Nat) : ℚ)) = k * (2 : ℚ) ^ (-(j : ℤ)) := by
    rw [zpow_neg, zpow_natCast]; push_cast; rw [div_eq_mul_inv]
  rw [hq] at l u sc
  have hkq : (0 : ℚ) < k := by exact_mod_cast hk
  have hk2q : (k : ℚ) < 2 ^ (53 : ℤ) := by
    rw [show (53 : ℤ) = ((53 : ℕ) : ℤ) from rfl, zpow_natCast]; exact_mod_cast hk2
  have hPj : (0 : ℚ) < (2 : ℚ) ^ (-(j : ℤ)) := by positivity
  -- the binade lies below 2^(53 - j)
  have he : e < 53 - (j : ℤ) := by
    have h1 : (2 : ℚ) ^ e < (2 : ℚ) ^ (53 - (j : ℤ)) := by
      have : (2 : ℚ) ^ (53 - (j : ℤ)) = 2 ^ (53 : ℤ) * (2 : ℚ) ^ (-(j : ℤ)) := by
        rw [← zpow_add₀ h2]; congr 1
      rw [this]
      calc (2 : ℚ) ^ e ≤ k * (2 : ℚ) ^ (-(j : ℤ)) := l
        _ < 2 ^ (53 : ℤ) * (2 : ℚ) ^ (-(j : ℤ)) := mul_lt_mul_of_pos_right hk2q hPj
    exact (zpow_lt_zpow_iff_right₀ (by norm_num)).1 h1
  have hz0 : 0 ≤ 52 - (j : ℤ) - e := by omega
  have hpow : (2 : ℚ) ^ (-(j : ℤ)) * 2 ^ 52 / (2 : ℚ) ^ e =
      (((2 ^ (52 - (j : ℤ) - e).toNat : Nat)) : ℚ) := by
    have e1 : (2 : ℚ) ^ (52 : ℕ) = (2 : ℚ) ^ ((52 : ℕ) : ℤ) := (zpow_natCast _ _).symm
    rw [e1, ← zpow_add₀ h2, ← zpow_sub₀ h2]
    push_cast
    rw [← zpow_natCast, Int.toNat_of_nonneg hz0]
    congr 1; ring
  have hab : (a : ℚ) / b = ((k * 2 ^ (52 - (j : ℤ) - e).toNat : Nat) : ℚ) := by
    rw [sc, mul_assoc, mul_div_assoc, hpow]; push_cast; ring
  have hq' : (k : ℚ) / 2 ^ j = k * (2 : ℚ) ^ (-(j : ℤ)) := by
    rw [zpow_neg, zpow_natCast, div_eq_mul_inv]
  have hPe : (2 : ℚ) ^ e ≠ 0 := by positivity
  rw [v, rne_of_int a b _ hb hab, hq', Nat.cast_mul, ← hpow]
  field_simp
  ring

/-- The value of a natural plus a fraction. -/
theorem val_add_nat (s : Nat) (p : Nat × Nat) (hp : 0 < p.2) :
    ((s * p.2 + p.1 : Nat) : ℚ) / (p.2 : ℚ) = s + val p := by
  have : (0 : ℚ) < p.2 := by exact_mod_cast hp
  unfold val; push_cast; field_simp

/-- The value of `Seconds` is the rounded sum of the seconds and the rounded fraction. -/
theorem Seconds_val (a : Nat) :
    ∃ n d : Nat, 0 < d ∧ Seconds a = roundQ n d ∧
      (n : ℚ) / d = (a / 1000000000 : Nat) + val (roundQ (a % 1000000000) 1000000000) :=
  ⟨_, _, roundQ_den_pos _ _, rfl, val_add_nat _ _ (roundQ_den_pos _ _)⟩

/-- One is a binary64 number. -/
theorem roundQ_one : val (roundQ 1 1) = 1 := by
  have := roundQ_fix 1 0 (by norm_num) (by norm_num)
  simpa using this

/-- A natural below `2^53` is a binary64 number. -/
theorem roundQ_nat (k : Nat) (hk : k < 2 ^ 53) : val (roundQ k 1) = k := by
  by_cases h0 : k = 0
  · subst h0; simp [roundQ_zero]
  · have := roundQ_fix k 0 (by omega) hk
    simpa using this

/-- The fraction of a second is rounded to at most one. -/
theorem frac_le_one (r : Nat) (hr : r ≤ 1000000000) :
    val (roundQ r 1000000000) ≤ 1 := by
  rw [← roundQ_one]
  apply roundQ_mono _ _ _ _ (by norm_num) (by norm_num)
  rw [div_le_div_iff₀ (by norm_num) (by norm_num)]
  have : (r : ℚ) ≤ 1000000000 := by exact_mod_cast hr
  push_cast
  linarith

/-- The method `Seconds` is monotone. -/
theorem Seconds_mono (a b : Nat) (h : a ≤ b) : val (Seconds a) ≤ val (Seconds b) := by
  obtain ⟨n1, d1, hd1, e1, v1⟩ := Seconds_val a
  obtain ⟨n2, d2, hd2, e2, v2⟩ := Seconds_val b
  rw [e1, e2]
  apply roundQ_mono n1 d1 n2 d2 hd1 hd2
  rw [v1, v2]
  have hs : a / 1000000000 ≤ b / 1000000000 := Nat.div_le_div_right h
  rcases Nat.lt_or_ge (a / 1000000000) (b / 1000000000) with hlt | hge
  · have h1 := frac_le_one (a % 1000000000) (le_of_lt (Nat.mod_lt _ (by norm_num)))
    have h2 := val_nonneg (roundQ (b % 1000000000) 1000000000)
    have h3 : ((a / 1000000000 : Nat) : ℚ) + 1 ≤ ((b / 1000000000 : Nat) : ℚ) := by
      exact_mod_cast hlt
    linarith
  · have heq : a / 1000000000 = b / 1000000000 := by omega
    have hm : a % 1000000000 ≤ b % 1000000000 := by omega
    have h1 : val (roundQ (a % 1000000000) 1000000000) ≤
        val (roundQ (b % 1000000000) 1000000000) := by
      apply roundQ_mono _ _ _ _ (by norm_num) (by norm_num)
      apply div_le_div_of_nonneg_right _ (by norm_num)
      exact_mod_cast hm
    rw [heq]; linarith

/-- The floor of a fraction is monotone in its value. -/
theorem floor_mono (p q : Nat × Nat) (h : val p ≤ val q) :
    p.1 / p.2 ≤ q.1 / q.2 := by
  have h1 : ⌊val p⌋₊ = p.1 / p.2 := Nat.floor_div_eq_div p.1 p.2
  have h2 : ⌊val q⌋₊ = q.1 / q.2 := Nat.floor_div_eq_div q.1 q.2
  rw [← h1, ← h2]
  exact Nat.floor_mono h

/-- The whole seconds the code computes are monotone in the duration. -/
theorem truncSeconds_mono {a b : Int} (h : a ≤ b) : truncSeconds a ≤ truncSeconds b := by
  unfold truncSeconds
  by_cases ha : 0 ≤ a
  · have hb : 0 ≤ b := le_trans ha h
    rw [if_pos ha, if_pos hb]
    have : a.natAbs ≤ b.natAbs := by omega
    exact_mod_cast floor_mono _ _ (Seconds_mono _ _ this)
  · by_cases hb : 0 ≤ b
    · rw [if_neg ha, if_pos hb]
      have h1 : (0 : Int) ≤ (((Seconds a.natAbs).1 / (Seconds a.natAbs).2 : Nat) : Int) :=
        Int.natCast_nonneg _
      have h2 : (0 : Int) ≤ (((Seconds b.natAbs).1 / (Seconds b.natAbs).2 : Nat) : Int) :=
        Int.natCast_nonneg _
      omega
    · rw [if_neg ha, if_neg hb]
      have : b.natAbs ≤ a.natAbs := by omega
      have := floor_mono _ _ (Seconds_mono _ _ this)
      omega

/-- The largest fraction of a second, `0.999999999`, as a binary64 number. -/
theorem frac_max : roundQ 999999999 1000000000 = (9007199245733793, 9007199254740992) := by
  decide

/-- The fraction of a second is rounded to at most `0.999999999`. -/
theorem frac_le_max (r : Nat) (hr : r < 1000000000) :
    val (roundQ r 1000000000) ≤ 9007199245733793 / 9007199254740992 := by
  have h : val (roundQ r 1000000000) ≤ val (roundQ 999999999 1000000000) := by
    apply roundQ_mono _ _ _ _ (by norm_num) (by norm_num)
    apply div_le_div_of_nonneg_right _ (by norm_num)
    have : r ≤ 999999999 := by omega
    exact_mod_cast this
  rw [frac_max] at h
  simpa [val] using h

/-- Below `2^24` seconds the value of `Seconds` stays inside the whole second:
it is at least `sec` and less than `sec + 1`. -/
theorem Seconds_bounds (a : Nat) (ha : a < 16777216000000000) :
    ((a / 1000000000 : Nat) : ℚ) ≤ val (Seconds a) ∧
      val (Seconds a) < ((a / 1000000000 : Nat) : ℚ) + 1 := by
  obtain ⟨n, d, hd, e1, v1⟩ := Seconds_val a
  have hsec : a / 1000000000 < 16777216 := by omega
  have hx0 := val_nonneg (roundQ (a % 1000000000) 1000000000)
  have hx1 := frac_le_max (a % 1000000000) (Nat.mod_lt _ (by norm_num))
  have hdq : (0 : ℚ) < d := by exact_mod_cast hd
  constructor
  · -- the sum is at least `sec`, a binary64 number
    have h := roundQ_mono (a / 1000000000) 1 n d (by norm_num) hd (by rw [v1]; simp; linarith)
    rw [roundQ_nat _ (by omega)] at h
    rw [e1]; exact h
  · by_cases hn : n = 0
    · rw [e1, hn, roundQ_zero]
      have : (0 : ℚ) ≤ ((a / 1000000000 : Nat) : ℚ) := by positivity
      linarith
    · obtain ⟨e, a', b', hb', l, u, sc, v⟩ := roundQ_struct n d (by omega) hd
      have hsq : ((a / 1000000000 : Nat) : ℚ) + 1 ≤ 16777216 := by
        have : a / 1000000000 + 1 ≤ 16777216 := by omega
        exact_mod_cast this
      -- the binade is at most 2^23
      have he : e < 24 := by
        have h1 : (2 : ℚ) ^ e < (2 : ℚ) ^ (24 : ℤ) := by
          have h24 : (2 : ℚ) ^ (24 : ℤ) = 16777216 := by norm_num
          rw [h24]
          calc (2 : ℚ) ^ e ≤ (n : ℚ) / d := l
            _ < 16777216 := by rw [v1]; linarith
        exact (zpow_lt_zpow_iff_right₀ (by norm_num)).1 h1
      have hP : (2 : ℚ) ^ e ≤ 8388608 := by
        have h23 : (2 : ℚ) ^ (23 : ℤ) = 8388608 := by norm_num
        rw [← h23]
        exact zpow_le_zpow_right₀ (by norm_num) (by omega)
      have hP0 : (0 : ℚ) < (2 : ℚ) ^ e := by positivity
      obtain ⟨r1, _, _, _⟩ := rne_spec a' b' hb'
      rw [sc] at r1
      have h52 : (2 : ℚ) ^ 52 = 4503599627370496 := by norm_num
      rw [e1, v, h52]
      rw [h52] at r1
      -- rne ≤ q * 2^52 / P + 1/2, so the value is at most q + P / 2^53
      have hv : (rne a' b' : ℚ) * (2 : ℚ) ^ e / 4503599627370496 ≤
          (n : ℚ) / d + (2 : ℚ) ^ e / 9007199254740992 := by
        rw [div_le_iff₀ (by norm_num)]
        have h3 : (rne a' b' : ℚ) ≤ (n : ℚ) / d * 4503599627370496 / (2 : ℚ) ^ e + 1 / 2 := by
          linarith
        calc (rne a' b' : ℚ) * (2 : ℚ) ^ e
            ≤ ((n : ℚ) / d * 4503599627370496 / (2 : ℚ) ^ e + 1 / 2) * (2 : ℚ) ^ e :=
              mul_le_mul_of_nonneg_right h3 (le_of_lt hP0)
          _ = ((n : ℚ) / d + (2 : ℚ) ^ e / 9007199254740992) * 4503599627370496 := by
              field_simp; ring
      rw [v1] at hv
      have hPd : (2 : ℚ) ^ e / 9007199254740992 ≤ 8388608 / 9007199254740992 := by
        apply div_le_div_of_nonneg_right hP (by norm_num)
      have : (9007199245733793 : ℚ) / 9007199254740992 + 8388608 / 9007199254740992 < 1 := by
        norm_num
      linarith

/-- Below `2^24` seconds the whole seconds of a non-negative duration are its
seconds. -/
theorem Seconds_floor (a : Nat) (ha : a < 16777216000000000) :
    (Seconds a).1 / (Seconds a).2 = a / 1000000000 := by
  obtain ⟨h1, h2⟩ := Seconds_bounds a ha
  have hf : ⌊val (Seconds a)⌋₊ = (Seconds a).1 / (Seconds a).2 :=
    Nat.floor_div_eq_div (Seconds a).1 (Seconds a).2
  rw [← hf]
  exact (Nat.floor_eq_iff (val_nonneg _)).2 ⟨h1, h2⟩

/-- Below `2^24` seconds in absolute value, the whole seconds the code computes
are the duration truncated toward zero to whole seconds. -/
theorem truncSeconds_exact (d : Int) (h1 : -16777216000000000 < d)
    (h2 : d < 16777216000000000) : truncSeconds d = Int.tdiv d Second := by
  unfold truncSeconds Second
  rw [Seconds_floor d.natAbs (by omega)]
  by_cases h : 0 ≤ d
  · rw [if_pos h, Int.tdiv_eq_ediv h (by decide)]
    omega
  · rw [if_neg h]
    have h3 : (0 : Int) ≤ -d := by omega
    have h4 : d = -(-d) := by omega
    rw [h4, Int.neg_tdiv, Int.tdiv_eq_ediv h3 (by decide)]
    simp only [neg_neg, Int.natAbs_neg]
    omega

/-- The whole seconds of the opposite duration are the opposite. -/
theorem truncSeconds_neg (d : Int) : truncSeconds (-d) = -truncSeconds d := by
  unfold truncSeconds
  by_cases h : 0 < d
  · rw [if_neg (by omega), if_pos (by omega)]; simp
  · by_cases h0 : d = 0
    · subst h0; decide
    · rw [if_pos (by omega), if_neg (by omega)]; simp

/-- A duration is at least one second exactly when its whole seconds are. -/
theorem one_le_truncSeconds (d : Int) : 1 ≤ truncSeconds d ↔ 1000000000 ≤ d := by
  constructor
  · intro h
    by_contra hlt
    have hm : truncSeconds d ≤ truncSeconds 999999999 := truncSeconds_mono (by omega)
    have : truncSeconds 999999999 = 0 := by decide
    omega
  · intro h
    have hm : truncSeconds 1000000000 ≤ truncSeconds d := truncSeconds_mono h
    have : truncSeconds 1000000000 = 1 := by decide
    omega

/-- The whole seconds are non-negative exactly for a duration above `-1s`. -/
theorem truncSeconds_nonneg (d : Int) : 0 ≤ truncSeconds d ↔ -1000000000 < d := by
  constructor
  · intro h
    by_contra hlt
    have hm : truncSeconds d ≤ truncSeconds (-1000000000) := truncSeconds_mono (by omega)
    have : truncSeconds (-1000000000) = -1 := by decide
    omega
  · intro h
    have hm : truncSeconds (-999999999) ≤ truncSeconds d := truncSeconds_mono (by omega)
    have : truncSeconds (-999999999) = 0 := by decide
    omega

/-! ## `ParseDuration` returns -/

/-- The helper `leadingInt` returns a suffix of its input. -/
theorem leadingInt_length : ∀ (s : List Char) (x v : Nat) (s1 : List Char),
    leadingInt s x = some (v, s1) → s1.length ≤ s.length := by
  intro s
  induction s with
  | nil => intro x v s1 h; simp [leadingInt] at h; simp [h.2.symm]
  | cons c cs ih =>
    intro x v s1 h
    unfold leadingInt at h
    split at h
    · simp at h; simp [h.2.symm]
    · split at h
      · simp at h
      · simp only at h
        split at h
        · simp at h
        · have := ih _ v s1 h
          simp; omega

/-- The helper `leadingFraction` returns a suffix of its input. -/
theorem leadingFraction_length : ∀ (s : List Char) (x scale : Nat) (o : Bool),
    (leadingFraction s x scale o).2.2.length ≤ s.length := by
  intro s
  induction s with
  | nil => intro x scale o; simp [leadingFraction]
  | cons c cs ih =>
    intro x scale o
    unfold leadingFraction
    split
    · simp
    · split
      · have := ih x scale true; simp; omega
      · split
        · have := ih x scale true; simp; omega
        · simp only
          split
          · have := ih x scale true; simp; omega
          · have := ih (x * 10 + (c.toNat - 48)) (scale * 10) false; simp; omega

/-- The fraction step returns a suffix of its input. -/
theorem fractionPart_length (s : List Char) : (fractionPart s).2.2.1.length ≤ s.length := by
  unfold fractionPart
  split
  · next s2 => have := leadingFraction_length s2 0 1 false; simp; omega
  · simp

/-- The unit scan splits its input in two. -/
theorem spanUnit_length (s : List Char) :
    (spanUnit s).1.length + (spanUnit s).2.length = s.length := by
  induction s with
  | nil => simp [spanUnit]
  | cons c cs ih =>
    unfold spanUnit
    split
    · simp
    · simp; omega

/-- The loop of `ParseDuration` returns: with more fuel than characters it
never runs out of fuel. -/
theorem parseLoop_fuel : ∀ (fuel : Nat) (s : List Char) (d : Nat),
    s.length < fuel → (parseLoop fuel s d).isSome = true := by
  intro fuel
  induction fuel with
  | zero => intro s d h; omega
  | succ n ih =>
    intro s d h
    unfold parseLoop
    split
    · rfl
    · next c0 t =>
      split
      · rfl
      · split
        · rfl
        · next v s1 hli =>
          simp only
          split
          · rfl
          · split
            · rfl
            · next hu =>
              have key : ∀ d1 : Nat,
                  (parseLoop n (spanUnit (fractionPart s1).2.2.1).2 d1).isSome = true := by
                intro d1
                apply ih
                have h1 := leadingInt_length _ _ _ _ hli
                have h2 := fractionPart_length s1
                have h3 := spanUnit_length (fractionPart s1).2.2.1
                have h4 : 0 < (spanUnit (fractionPart s1).2.2.1).1.length :=
                  List.length_pos.2 hu
                simp only [List.length_cons] at h h1
                omega
              split
              · rfl
              · split
                · rfl
                · split_ifs <;> first | rfl | exact key _

/-- The function `ParseDuration` returns on every text: its loop is run with
enough fuel. -/
theorem parseLoop_returns (s : List Char) : (parseLoop (s.length + 1) s 0).isSome = true :=
  parseLoop_fuel (s.length + 1) s 0 (by omega)

/-- Every error return of `ParseDuration` carries the zero duration. -/
theorem ParseDuration_error (s : String) (h : (ParseDuration s).2 ≠ none) :
    (ParseDuration s).1 = 0 := by
  unfold ParseDuration at h ⊢
  split
  · next d hd => rw [hd] at h; simp at h
  · rfl

/-! ## The selection loop -/

/-- The eligibility test, as a comparison of whole seconds. -/
theorem eligible_iff (r : ResourceConditionAfter) (since : Int) :
    eligible r since = true ↔ truncSeconds (threshold r) ≤ truncSeconds since := by
  simp [eligible]

/-- What the loop of "Logic 2" computes from any state `(l, mx)` at index `i`,
each rule being tested at the clock reading of its own iteration: either no
remaining rule beats `mx` and the state is returned unchanged, or the result is
the earliest remaining eligible rule whose whole-second threshold is the
greatest, and that threshold exceeds `mx`. -/
theorem selectLoop_spec (since : Nat → Int) (rs : List ResourceConditionAfter) :
    ∀ (i : Nat) (l mx : Int),
      (selectLoop since rs i (l, mx) = (l, mx) ∧
        ∀ (j : Nat) (r : ResourceConditionAfter), rs[j]? = some r →
          eligible r (since (i + j)) = true → truncSeconds (threshold r) ≤ mx) ∨
      (∃ (k : Nat) (r : ResourceConditionAfter), rs[k]? = some r ∧
        selectLoop since rs i (l, mx) = (((i + k : Nat) : Int), truncSeconds (threshold r)) ∧
        eligible r (since (i + k)) = true ∧ mx < truncSeconds (threshold r) ∧
        (∀ (j : Nat) (r' : ResourceConditionAfter), rs[j]? = some r' →
          eligible r' (since (i + j)) = true →
          truncSeconds (threshold r') ≤ truncSeconds (threshold r)) ∧
        (∀ (j : Nat) (r' : ResourceConditionAfter), j < k → rs[j]? = some r' →
          eligible r' (since (i + j)) = true →
          truncSeconds (threshold r') < truncSeconds (threshold r))) := by
  induction rs with
  | nil =>
    intro i l mx
    left
    exact ⟨rfl, by intro j r hj; simp at hj⟩
  | cons a rest ih =>
    intro i l mx
    have hidx : ∀ j : Nat, i + (j + 1) = i + 1 + j := by intro j; omega
    by_cases he : eligible a (since i) = true
    · by_cases hm : mx < truncSeconds (threshold a)
      · -- the head becomes the current winner
        have hstep : selectLoop since (a :: rest) i (l, mx) =
            selectLoop since rest (i + 1) ((i : Int), truncSeconds (threshold a)) := by
          simp [selectLoop, he, hm]
        right
        rcases ih (i + 1) (i : Int) (truncSeconds (threshold a)) with
          ⟨h1, h2⟩ | ⟨k, r, hk, h1, h2, h3, h4, h5⟩
        · refine ⟨0, a, by simp, ?_, by simpa using he, hm, ?_, ?_⟩
          · rw [hstep, h1]; simp
          · intro j r' hj hr'
            cases j with
            | zero => simp at hj; subst hj; exact le_refl _
            | succ j => simp at hj; rw [hidx] at hr'; exact h2 j r' hj hr'
          · intro j r' hj; omega
        · refine ⟨k + 1, r, by simpa using hk, ?_, by rw [hidx]; exact h2, by omega, ?_, ?_⟩
          · rw [hstep, h1]; simp; omega
          · intro j r' hj hr'
            cases j with
            | zero => simp at hj; subst hj; omega
            | succ j => simp at hj; rw [hidx] at hr'; exact h4 j r' hj hr'
          · intro j r' hjk hj hr'
            cases j with
            | zero => simp at hj; subst hj; exact h3
            | succ j => simp at hj; rw [hidx] at hr'; exact h5 j r' (by omega) hj hr'
      · -- the head is eligible but does not beat `mx`
        have hstep : selectLoop since (a :: rest) i (l, mx) =
            selectLoop since rest (i + 1) (l, mx) := by
          simp [selectLoop, he, hm]
        rcases ih (i + 1) l mx with ⟨h1, h2⟩ | ⟨k, r, hk, h1, h2, h3, h4, h5⟩
        · left
          refine ⟨by rw [hstep, h1], ?_⟩
          intro j r' hj hr'
          cases j with
          | zero => simp at hj; subst hj; omega
          | succ j => simp at hj; rw [hidx] at hr'; exact h2 j r' hj hr'
        · right
          refine ⟨k + 1, r, by simpa using hk, ?_, by rw [hidx]; exact h2, h3, ?_, ?_⟩
          · rw [hstep, h1]; simp; omega
          · intro j r' hj hr'
            cases j with
            | zero => simp at hj; subst hj; omega
            | succ j => simp at hj; rw [hidx] at hr'; exact h4 j r' hj hr'
          · intro j r' hjk hj hr'
            cases j with
            | zero => simp at hj; subst hj; omega
            | succ j => simp at hj; rw [hidx] at hr'; exact h5 j r' (by omega) hj hr'
    · -- the head is not eligible
      have hstep : selectLoop since (a :: rest) i (l, mx) =
          selectLoop since rest (i + 1) (l, mx) := by
        simp [selectLoop, he]
      rcases ih (i + 1) l mx with ⟨h1, h2⟩ | ⟨k, r, hk, h1, h2, h3, h4, h5⟩
      · left
        refine ⟨by rw [hstep, h1], ?_⟩
        intro j r' hj hr'
        cases j with
        | zero => simp at hj; subst hj; exact absurd hr' he
        | succ j => simp at hj; rw [hidx] at hr'; exact h2 j r' hj hr'
      · right
        refine ⟨k + 1, r, by simpa using hk, ?_, by rw [hidx]; exact h2, h3, ?_, ?_⟩
        · rw [hstep, h1]; simp; omega
        · intro j r' hj hr'
          cases j with
          | zero => simp at hj; subst hj; exact absurd hr' he
          | succ j => simp at hj; rw [hidx] at hr'; exact h4 j r' hj hr'
        · intro j r' hjk hj hr'
          cases j with
          | zero => simp at hj; subst hj; exact absurd hr' he
          | succ j => simp at hj; rw [hidx] at hr'; exact h5 j r' (by omega) hj hr'

/-- The inline selection from the initial state `l = -1`, `mx = -1`: either
nothing is selected and every rule eligible at its own reading has a negative
whole-second threshold, or the selected index is the earliest rule, eligible at
its own reading, with the greatest whole-second threshold, which is
non-negative. -/
theorem selectIndex_spec (rules : List ResourceConditionAfter) (since : Nat → Int) :
    (selectIndex rules since = -1 ∧
      ∀ (j : Nat) (r : ResourceConditionAfter), rules[j]? = some r →
        eligible r (since j) = true → truncSeconds (threshold r) ≤ -1) ∨
    (∃ (k : Nat) (r : ResourceConditionAfter), rules[k]? = some r ∧
      selectIndex rules since = (k : Int) ∧
      eligible r (since k) = true ∧ 0 ≤ truncSeconds (threshold r) ∧
      (∀ (j : Nat) (r' : ResourceConditionAfter), rules[j]? = some r' →
        eligible r' (since j) = true →
        truncSeconds (threshold r') ≤ truncSeconds (threshold r)) ∧
      (∀ (j : Nat) (r' : ResourceConditionAfter), j < k → rules[j]? = some r' →
        eligible r' (since j) = true →
        truncSeconds (threshold r') < truncSeconds (threshold r))) := by
  unfold selectIndex
  rcases selectLoop_spec since rules 0 (-1) (-1) with
    ⟨h1, h2⟩ | ⟨k, r, hk, h1, h2, h3, h4, h5⟩
  · left
    refine ⟨by rw [h1], ?_⟩
    intro j r hj he
    exact h2 j r hj (by simpa using he)
  · right
    refine ⟨k, r, hk, ?_, by simpa using h2, by omega, ?_, ?_⟩
    · rw [h1]; simp
    · intro j r' hj he
      exact h4 j r' hj (by simpa using he)
    · intro j r' hjk hj he
      exact h5 j r' hjk hj (by simpa using he)

/-- The selection loop reads the rules through their thresholds only. -/
theorem selectLoop_congr (since : Nat → Int) :
    ∀ (rs rs' : List ResourceConditionAfter) (i : Nat) (st : Int × Int),
      rs.map threshold = rs'.map threshold →
      selectLoop since rs i st = selectLoop since rs' i st := by
  intro rs
  induction rs with
  | nil =>
    intro rs' i st h
    cases rs' with
    | nil => rfl
    | cons a' rest' => simp at h
  | cons a rest ih =>
    intro rs' i st h
    cases rs' with
    | nil => simp at h
    | cons a' rest' =>
      simp only [List.map_cons, List.cons.injEq] at h
      obtain ⟨l, mx⟩ := st
      simp only [selectLoop, eligible, h.1]
      split
      · split
        · exact ih rest' (i + 1) _ h.2
        · exact ih rest' (i + 1) _ h.2
      · exact ih rest' (i + 1) _ h.2

/-! ## `SetConditions` -/

/-- Conditions of another type are neither changed nor added by the loop of
`SetConditions`. -/
theorem setLoop_filter (new : Condition) (t : String) (ht : new.Typ ≠ t) (cs : List Condition) :
    (setLoop new cs).1.filter (fun c => decide (c.Typ = t)) =
      cs.filter (fun c => decide (c.Typ = t)) := by
  induction cs with
  | nil => simp [setLoop]
  | cons a rest ih =>
    by_cases h1 : a.Typ = new.Typ
    · have hat : ¬ a.Typ = t := by rw [h1]; exact ht
      by_cases h2 : a.Equal new = true
      · simp [setLoop, h1, h2, ih, List.filter_cons]
      · simp [setLoop, h1, h2, ih, List.filter_cons, hat, ht]
    · simp [setLoop, h1, ih, List.filter_cons]

/-- Conditions of another type are neither changed nor added by
`SetConditions`. -/
theorem SetConditions_filter (new : Condition) (t : String) (ht : new.Typ ≠ t)
    (cs : List Condition) :
    (SetConditions cs new).filter (fun c => decide (c.Typ = t)) =
      cs.filter (fun c => decide (c.Typ = t)) := by
  unfold SetConditions
  split
  · exact setLoop_filter new t ht cs
  · rw [List.filter_append, setLoop_filter new t ht cs]
    simp [List.filter_cons, ht]

/-- After the loop of `SetConditions`, every condition of the supplied type is
identical to the supplied one up to the transition time. -/
theorem setLoop_allEqual (new : Condition) (cs : List Condition) :
    ∀ c ∈ (setLoop new cs).1, c.Typ = new.Typ → c.Equal new = true := by
  induction cs with
  | nil => simp [setLoop]
  | cons a rest ih =>
    intro c hc hty
    by_cases h1 : a.Typ = new.Typ
    · by_cases h2 : a.Equal new = true
      · simp [setLoop, h1, h2] at hc
        rcases hc with rfl | hc
        · exact h2
        · exact ih c hc hty
      · simp [setLoop, h1, h2] at hc
        rcases hc with rfl | hc
        · simp [Condition.Equal]
        · exact ih c hc hty
    · simp [setLoop, h1] at hc
      rcases hc with rfl | hc
      · exact absurd hty h1
      · exact ih c hc hty

/-- The flag `exists` of the loop is set when a condition of the supplied type
is present, and then the loop leaves one in place. -/
theorem setLoop_exists (new : Condition) (cs : List Condition) :
    (setLoop new cs).2 = true → ∃ c ∈ (setLoop new cs).1, c.Typ = new.Typ := by
  induction cs with
  | nil => simp [setLoop]
  | cons a rest ih =>
    intro h
    by_cases h1 : a.Typ = new.Typ
    · by_cases h2 : a.Equal new = true
      · exact ⟨a, by simp [setLoop, h1, h2], h1⟩
      · exact ⟨new, by simp [setLoop, h1, h2], rfl⟩
    · simp [setLoop, h1] at h
      obtain ⟨c, hc, hty⟩ := ih h
      exact ⟨c, by simp [setLoop, h1, hc], hty⟩

/-- The loop changes nothing when every condition of the supplied type is
already identical up to the transition time; the flag `exists` tells whether
there is one. -/
theorem setLoop_fixed (new : Condition) (cs : List Condition)
    (h : ∀ c ∈ cs, c.Typ = new.Typ → c.Equal new = true) :
    (setLoop new cs).1 = cs ∧ ((∃ c ∈ cs, c.Typ = new.Typ) → (setLoop new cs).2 = true) := by
  induction cs with
  | nil => simp [setLoop]
  | cons a rest ih =>
    have ih1 := ih (fun c hc => h c (List.mem_cons_of_mem a hc))
    by_cases h1 : a.Typ = new.Typ
    · have h2 : a.Equal new = true := h a (List.mem_cons_self a rest) h1
      simp [setLoop, h1, h2, ih1.1]
    · simp [setLoop, h1, ih1.1]
      intro c hc hty
      exact ih1.2 ⟨c, hc, hty⟩

/-- Setting a condition, then one that differs from it in the transition time
only, leaves the result of the first call. -/
theorem SetConditions_twice (cs : List Condition) (new new' : Condition)
    (hc : new'.content = new.content) :
    SetConditions (SetConditions cs new) new' = SetConditions cs new := by
  simp only [Condition.content, Prod.mk.injEq] at hc
  obtain ⟨e1, e2, e3, e4⟩ := hc
  have htrans : ∀ c : Condition, c.Equal new = true → c.Equal new' = true := by
    intro c hc
    simp only [Condition.Equal, Bool.decide_and, Bool.and_eq_true, decide_eq_true_eq] at hc ⊢
    rw [e1, e2, e3, e4]; exact hc
  have key : ∀ cs1 : List Condition, (∀ c ∈ cs1, c.Typ = new.Typ → c.Equal new = true) →
      (∃ c ∈ cs1, c.Typ = new.Typ) → SetConditions cs1 new' = cs1 := by
    intro cs1 hall hex
    have hall' : ∀ c ∈ cs1, c.Typ = new'.Typ → c.Equal new' = true :=
      fun c hc hty => htrans c (hall c hc (by rw [← e1]; exact hty))
    have hex' : ∃ c ∈ cs1, c.Typ = new'.Typ := by
      obtain ⟨c, hc, hty⟩ := hex
      exact ⟨c, hc, by rw [e1]; exact hty⟩
    have hf := setLoop_fixed new' cs1 hall'
    unfold SetConditions
    rw [if_pos (hf.2 hex'), hf.1]
  by_cases hex : (setLoop new cs).2 = true
  · have h1 : SetConditions cs new = (setLoop new cs).1 := by
      unfold SetConditions; rw [if_pos hex]
    rw [h1]
    exact key _ (setLoop_allEqual new cs) (setLoop_exists new cs hex)
  · have h1 : SetConditions cs new = (setLoop new cs).1 ++ [new] := by
      unfold SetConditions; rw [if_neg hex]
    rw [h1]
    refine key _ ?_ ⟨new, by simp, rfl⟩
    intro c hc hty
    rcases List.mem_append.1 hc with hc | hc
    · exact setLoop_allEqual new cs c hc hty
    · simp at hc; subst hc; simp [Condition.Equal]

/-! ## `Observe`, step by step -/

/-- What `Observe` does to a resource without deletion marker. -/
theorem Observe_nop (cr : NopResource) (since : Nat → Int) (now : Int)
    (hd : WasDeleted cr = false) :
    Observe (.nop cr) since now =
      (.nop (applySelected cr (selectIndex cr.ConditionAfter since) now),
        { ResourceExists := true, ResourceUpToDate := true, ConnectionDetails := some [] },
        none) := by
  simp [Observe, hd]

/-- The block applying the selected rule, at a valid index. -/
theorem applySelected_index (cr : NopResource) (k : Nat) (r : ResourceConditionAfter)
    (now : Int) (hk : cr.ConditionAfter[k]? = some r) :
    applySelected cr (k : Int) now =
      { cr with Conditions := (SetConditions cr.Conditions
          ⟨r.ConditionType, r.ConditionStatus, now, ReasonAvailable, ""⟩) } := by
  have h : ((k : Int) ≠ -1) := by omega
  simp [applySelected, h, hk]

/-- The block applying the selected rule leaves the rule list alone. -/
theorem applySelected_rules (cr : NopResource) (l : Int) (now : Int) :
    (applySelected cr l now).ConditionAfter = cr.ConditionAfter := by
  unfold applySelected
  split
  · split <;> rfl
  · rfl

/-- The block applying the selected rule leaves the deletion marker alone. -/
theorem applySelected_deleted (cr : NopResource) (l : Int) (now : Int) :
    WasDeleted (applySelected cr l now) = WasDeleted cr := by
  unfold applySelected
  split
  · split <;> rfl
  · rfl

/-- Running `Observe` a second time with the same clock readings returns the
resource of the first run. -/
theorem Observe_twice (mg : Managed) (since : Nat → Int) (now1 now2 : Int) :
    (Observe (Observe mg since now1).1 since now2).1 = (Observe mg since now1).1 := by
  cases mg with
  | other kind => simp [Observe]
  | nop cr =>
    by_cases hd : WasDeleted cr = true
    · simp [Observe, hd]
    · have hd' : WasDeleted cr = false := by simpa using hd
      rw [Observe_nop cr since now1 hd']
      simp only
      rw [Observe_nop _ since now2 (by rw [applySelected_deleted]; exact hd')]
      simp only [applySelected_rules]
      rcases selectIndex_spec cr.ConditionAfter since with ⟨h1, _⟩ | ⟨k, r, hk, h1, _⟩
      · rw [h1]; simp [applySelected]
      · rw [h1]
        have e1 := applySelected_index cr k r now1 hk
        have hk1 : (applySelected cr (k : Int) now1).ConditionAfter[k]? = some r := by
          rw [applySelected_rules]; exact hk
        rw [applySelected_index _ k r now2 hk1, e1]
        simp only [Managed.nop.injEq, NopResource.mk.injEq, true_and]
        exact SetConditions_twice cr.Conditions _ _ rfl

/-! ## The claims of the specification -/

/-- C1, evaluated on the rules of `TestReconcileLogic`: after 8s the `Synced`
rule at index 3 is eligible, yet the inline selection of `Observe` is the single
index 2 and only the `Ready` condition is set; after 50s it is the single index
0 and again only `Ready` is set (index 4 is not selected). The test expects
the selections 2, 3 and 0, 4. -/
theorem observe_test_rules_single_index :
    eligible ⟨"5s", "Synced", "False"⟩ 8000000000 = true ∧
    selectIndex testRules (steady 8000000000) = 2 ∧
    (Observe (.nop testResource) (steady 8000000000) 77).1 =
      .nop { testResource with Conditions := [⟨"Ready", "True", 77, "Available", ""⟩] } ∧
    selectIndex testRules (steady 50000000000) = 0 ∧
    (Observe (.nop testResource) (steady 50000000000) 77).1 =
      .nop { testResource with Conditions := [⟨"Ready", "False", 77, "Available", ""⟩] } := by
  decide

/-- C2 fails as stated: of two eligible `Ready` rules with thresholds 1500ms and
1900ms, after 2s the selection is index 0, although the rule at index 1 is
eligible, has the same type and a strictly greater threshold. -/
theorem selected_not_greatest_threshold :
    selectIndex subSecondRules (steady 2000000000) = 0 ∧
    subSecondRules[0]? = some ⟨"1500ms", "Ready", "False"⟩ ∧
    subSecondRules[1]? = some ⟨"1900ms", "Ready", "True"⟩ ∧
    eligible ⟨"1900ms", "Ready", "True"⟩ 2000000000 = true ∧
    threshold ⟨"1500ms", "Ready", "False"⟩ < threshold ⟨"1900ms", "Ready", "True"⟩ := by
  decide

/-- C2, amended: whatever the clock reads in each iteration of the loop, every
selected index passes the eligibility test at the reading of its own iteration,
and among the rules of the same condition type that pass the test at their own
reading it holds a threshold that is greatest in whole seconds, every earlier
such rule having a strictly smaller one. The whole seconds are those the code
computes, `int(d.Seconds())`, which below `2^24` seconds in absolute value is
the duration truncated toward zero. -/
theorem selected_greatest_whole_seconds (rules : List ResourceConditionAfter)
    (since : Nat → Int) (k : Nat) (r : ResourceConditionAfter)
    (hsel : selectIndex rules since = (k : Int)) (hk : rules[k]? = some r) :
    eligible r (since k) = true ∧
    (∀ (j : Nat) (r' : ResourceConditionAfter), rules[j]? = some r' →
      r'.ConditionType = r.ConditionType → eligible r' (since j) = true →
      truncSeconds (threshold r') ≤ truncSeconds (threshold r) ∧
        (j < k → truncSeconds (threshold r') < truncSeconds (threshold r))) ∧
    (∀ d : Int, -16777216000000000 < d → d < 16777216000000000 →
      truncSeconds d = Int.tdiv d Second) := by
  rcases selectIndex_spec rules since with ⟨h1, _⟩ | ⟨k', r0, hk', h1, h2, _, h4, h5⟩
  · rw [h1] at hsel; omega
  · have hkk : k' = k := by rw [h1] at hsel; omega
    subst hkk
    rw [hk] at hk'
    cases hk'
    exact ⟨h2, fun j r' hj _ he => ⟨h4 j r' hj he, fun hjk => h5 j r' hjk hj he⟩,
      truncSeconds_exact⟩

/-- C2, amended, on the test rules after 8s: index 2 is selected, it is eligible
and beats the eligible `Ready` rule at index 1. -/
theorem selected_greatest_whole_seconds_witness :
    eligible ⟨"7s", "Ready", "True"⟩ 8000000000 = true ∧
    truncSeconds (threshold ⟨"5s", "Ready", "False"⟩) <
      truncSeconds (threshold ⟨"7s", "Ready", "True"⟩) :=
  ⟨(selected_greatest_whole_seconds testRules (steady 8000000000) 2 ⟨"7s", "Ready", "True"⟩
      (by decide) (by decide)).1,
    ((selected_greatest_whole_seconds testRules (steady 8000000000) 2 ⟨"7s", "Ready", "True"⟩
      (by decide) (by decide)).2.1 1 ⟨"5s", "Ready", "False"⟩ (by decide) (by decide)
      (by decide)).2 (by decide)⟩

/-- C3 fails as stated: a rule with threshold 1500ms passes the eligibility
test at elapsed 1s, strictly below its threshold. -/
theorem eligible_below_threshold :
    ¬ (eligible ⟨"1500ms", "Ready", "False"⟩ 1000000000 = true ↔
      threshold ⟨"1500ms", "Ready", "False"⟩ ≤ 1000000000) := by
  decide

/-- C3, amended: a rule passes the eligibility test of the selection loop if
and only if the whole seconds of its threshold are at most the whole seconds of
the elapsed time, both as the code computes them (`time.Duration(d.Seconds())`
on `float64`); hence it is eligible whenever its threshold is at most elapsed
(the boundary included) and is not eligible when the whole seconds of elapsed
are below those of the threshold. Below `2^24` seconds in absolute value the
whole seconds are the duration truncated toward zero. On the six test rules,
elapsed 1.999s selects nothing and elapsed 2s selects index 5. -/
theorem eligibility_is_whole_second_comparison (r : ResourceConditionAfter) (since : Int) :
    (eligible r since = true ↔ truncSeconds (threshold r) ≤ truncSeconds since) ∧
    (threshold r ≤ since → eligible r since = true) ∧
    (eligible r (threshold r) = true) ∧
    (truncSeconds since < truncSeconds (threshold r) → eligible r since = false) ∧
    (-16777216000000000 < threshold r → threshold r < 16777216000000000 →
      -16777216000000000 < since → since < 16777216000000000 →
      (eligible r since = true ↔ Int.tdiv (threshold r) Second ≤ Int.tdiv since Second)) ∧
    selectIndex testRules (steady 1999000000) = -1 ∧
    selectIndex testRules (steady 2000000000) = 5 := by
  refine ⟨eligible_iff r since, fun h => (eligible_iff r since).2 (truncSeconds_mono h),
    (eligible_iff r _).2 (le_refl _), fun h => ?_, fun h1 h2 h3 h4 => ?_,
    by decide, by decide⟩
  · cases he : eligible r since with
    | false => rfl
    | true => have := (eligible_iff r since).1 he; omega
  · rw [eligible_iff, truncSeconds_exact _ h1 h2, truncSeconds_exact _ h3 h4]

/-- C3, amended, at the rule "2s" and elapsed 2s. -/
theorem eligibility_is_whole_second_comparison_witness :
    threshold ⟨"2s", "Ready", "False"⟩ ≤ 2000000000 ∧
    eligible ⟨"2s", "Ready", "False"⟩ 2000000000 = true :=
  ⟨by decide,
    (eligibility_is_whole_second_comparison ⟨"2s", "Ready", "False"⟩ 2000000000).2.1
      (by decide)⟩

/-- C4: on a NopResource that carries a deletion marker, whatever its rules and
the elapsed time, `Observe` returns an observation with `ResourceExists = false`
and no error, and leaves the resource, its condition set included, as it was. -/
theorem observe_deleted (cr : NopResource) (since : Nat → Int) (now : Int)
    (hd : WasDeleted cr = true) :
    (Observe (.nop cr) since now).2.1.ResourceExists = false ∧
    (Observe (.nop cr) since now).2.2 = none ∧
    (Observe (.nop cr) since now).1 = .nop cr ∧
    (Observe (.nop cr) since now).1.Conditions = cr.Conditions := by
  simp [Observe, hd, Managed.Conditions]

/-- C4, at a resource deleted at instant 5, 50s after creation. -/
theorem observe_deleted_witness :
    WasDeleted deletedResource = true ∧
    (Observe (.nop deletedResource) (steady 50000000000) 77).1 = .nop deletedResource :=
  ⟨by decide, (observe_deleted deletedResource (steady 50000000000) 77 (by decide)).2.2.1⟩

/-- C5: when the duration text of a rule fails to parse, `Observe` on a
resource without deletion marker returns no error, and the rule is treated
exactly like a rule with threshold zero: its threshold is read as 0, it is
eligible at every elapsed time from zero on, and replacing it by a rule of the
same condition type and status whose text parses to zero changes neither the
conditions `Observe` records nor the observation and error it returns. -/
theorem observe_unparsable_rule (cr : NopResource) (since : Nat → Int) (now : Int) (i : Nat)
    (r : ResourceConditionAfter) (hd : WasDeleted cr = false)
    (hi : cr.ConditionAfter[i]? = some r) (herr : (ParseDuration r.Time).2 ≠ none) :
    (Observe (.nop cr) since now).2.2 = none ∧
    threshold r = 0 ∧
    (∀ e : Int, 0 ≤ e → eligible r e = true) ∧
    (∀ r0 : ResourceConditionAfter, threshold r0 = 0 →
      r0.ConditionType = r.ConditionType → r0.ConditionStatus = r.ConditionStatus →
      (Observe (.nop { cr with ConditionAfter := cr.ConditionAfter.set i r0 }) since now).1.Conditions
          = (Observe (.nop cr) since now).1.Conditions ∧
      (Observe (.nop { cr with ConditionAfter := cr.ConditionAfter.set i r0 }) since now).2
          = (Observe (.nop cr) since now).2) := by
  have hth : threshold r = 0 := ParseDuration_error r.Time herr
  refine ⟨by rw [Observe_nop cr since now hd], hth, ?_, ?_⟩
  · intro e he
    rw [eligible_iff, hth]
    have h0 : truncSeconds 0 = 0 := by decide
    rw [h0]
    exact (truncSeconds_nonneg e).2 (by omega)
  · intro r0 h0 hty hst
    have hd0 : WasDeleted ({ cr with ConditionAfter := cr.ConditionAfter.set i r0 } : NopResource)
        = false := hd
    rw [Observe_nop cr since now hd, Observe_nop _ since now hd0]
    refine ⟨?_, rfl⟩
    simp only [Managed.Conditions]
    -- the two rule lists have the same thresholds, hence the same selection
    have hmap : (cr.ConditionAfter.set i r0).map threshold = cr.ConditionAfter.map threshold := by
      apply List.ext_getElem?
      intro n
      rw [List.map_set, List.getElem?_set]
      split
      · next hin =>
        subst hin
        split
        · next hlt =>
          rw [List.getElem?_map, hi, h0]; simp [hth]
        · next hlt =>
          simp at hlt
          rw [List.getElem?_eq_none (by simpa using hlt)]
      · rfl
    have hsel : selectIndex (cr.ConditionAfter.set i r0) since =
        selectIndex cr.ConditionAfter since := by
      unfold selectIndex
      rw [selectLoop_congr since _ _ 0 (-1, -1) hmap]
    rw [hsel]
    rcases selectIndex_spec cr.ConditionAfter since with ⟨h1, _⟩ | ⟨k, rk, hk, h1, _⟩
    · rw [h1]; simp [applySelected]
    · rw [h1, applySelected_index cr k rk now hk]
      by_cases hik : i = k
      · subst hik
        rw [hi] at hk
        cases hk
        have hk0 : ({ cr with ConditionAfter := cr.ConditionAfter.set i r0 } :
            NopResource).ConditionAfter[i]? = some r0 := by
          have hlt : i < cr.ConditionAfter.length := by
            by_contra hge
            rw [List.getElem?_eq_none (by omega)] at hi
            cases hi
          simp [List.getElem?_set, hlt]
        rw [applySelected_index _ i r0 now hk0, hty, hst]
      · have hk0 : ({ cr with ConditionAfter := cr.ConditionAfter.set i r0 } :
            NopResource).ConditionAfter[k]? = some rk := by
          simp [List.getElem?_set, hik, hk]
        rw [applySelected_index _ k rk now hk0]

/-- C5, at a resource whose second rule reads "ten seconds", after 3s. -/
theorem observe_unparsable_rule_witness :
    (Observe (.nop malformedResource) (steady 3000000000) 77).2.2 = none ∧
    threshold ⟨"ten seconds", "Synced", "True"⟩ = 0 :=
  ⟨(observe_unparsable_rule malformedResource (steady 3000000000) 77 1
      ⟨"ten seconds", "Synced", "True"⟩ (by decide) (by decide) (by decide)).1,
    (observe_unparsable_rule malformedResource (steady 3000000000) 77 1
      ⟨"ten seconds", "Synced", "True"⟩ (by decide) (by decide) (by decide)).2.1⟩

/-- C6: after one `Observe`, the recorded conditions of every condition type
that has no eligible rule are those recorded before; with an empty rule list
nothing is selected and the whole resource is unchanged. -/
theorem observe_frame (cr : NopResource) (since : Nat → Int) (now : Int) (t : String)
    (h : ∀ (j : Nat) (r : ResourceConditionAfter), cr.ConditionAfter[j]? = some r →
      r.ConditionType = t → eligible r (since j) = false) :
    (Observe (.nop cr) since now).1.Conditions.filter (fun c => decide (c.Typ = t)) =
      cr.Conditions.filter (fun c => decide (c.Typ = t)) ∧
    (cr.ConditionAfter = [] → selectIndex cr.ConditionAfter since = -1 ∧
      (Observe (.nop cr) since now).1 = .nop cr) := by
  constructor
  · by_cases hd : WasDeleted cr = true
    · simp [Observe, hd, Managed.Conditions]
    · have hd' : WasDeleted cr = false := by simpa using hd
      rw [Observe_nop cr since now hd']
      simp only [Managed.Conditions]
      rcases selectIndex_spec cr.ConditionAfter since with ⟨h1, _⟩ | ⟨k, r, hk, h1, h2, _⟩
      · rw [h1]; simp [applySelected]
      · rw [h1, applySelected_index cr k r now hk]
        have hne : r.ConditionType ≠ t := by
          intro ht
          have := h k r hk ht
          rw [h2] at this
          exact Bool.noConfusion this
        exact SetConditions_filter _ t hne cr.Conditions
  · intro he
    refine ⟨by rw [he]; rfl, ?_⟩
    by_cases hd : WasDeleted cr = true
    · simp [Observe, hd]
    · have hd' : WasDeleted cr = false := by simpa using hd
      rw [Observe_nop cr since now hd', he]
      simp [selectIndex, selectLoop, applySelected]

/-- C6, at the test rules after 2s, starting from a recorded `Synced`
condition: no `Synced` rule is eligible yet and the recorded condition stays. -/
theorem observe_frame_witness :
    (Observe (.nop syncedResource) (steady 2000000000) 77).1.Conditions.filter
        (fun c => decide (c.Typ = "Synced")) =
      syncedResource.Conditions.filter (fun c => decide (c.Typ = "Synced")) :=
  (observe_frame syncedResource (steady 2000000000) 77 "Synced"
    (fun _ r hj => (by decide : ∀ r ∈ testRules, r.ConditionType = "Synced" →
      eligible r 2000000000 = false) r (List.getElem?_mem hj))).1

/-- C7: applying is idempotent up to the timestamp: running `Observe` twice in
a row with the same rules and the same elapsed time leaves, after the second
run, conditions whose types, statuses, reasons and messages are those after the
first run, in the same order. -/
theorem observe_idempotent (mg : Managed) (since : Nat → Int) (now1 now2 : Int) :
    (Observe (Observe mg since now1).1 since now2).1.Conditions.map Condition.content =
      (Observe mg since now1).1.Conditions.map Condition.content := by
  rw [Observe_twice]

/-- C8: eligibility is monotone in elapsed time: a rule of the list that passes
the eligibility test at `elapsed1` passes it at every `elapsed2 > elapsed1`,
negative and sub-second values included. -/
theorem eligible_monotone (rules : List ResourceConditionAfter) (elapsed1 elapsed2 : Int)
    (h : elapsed1 < elapsed2) (i : Nat) (r : ResourceConditionAfter)
    (_hi : rules[i]? = some r) (he : eligible r elapsed1 = true) :
    eligible r elapsed2 = true := by
  have h1 := (eligible_iff r elapsed1).1 he
  have h2 : truncSeconds elapsed1 ≤ truncSeconds elapsed2 := truncSeconds_mono (le_of_lt h)
  exact (eligible_iff r elapsed2).2 (le_trans h1 h2)

/-- C8, at the rule "2s" of the test (index 5), from 2s to 2.5s. -/
theorem eligible_monotone_witness :
    eligible ⟨"2s", "Ready", "False"⟩ 2500000000 = true :=
  eligible_monotone testRules 2000000000 2500000000 (by decide) 5 ⟨"2s", "Ready", "False"⟩
    (by decide) (by decide)

/-- C9 fails as stated: at the negative elapsed -500ms a rule with the positive
threshold 500ms passes the eligibility test and is the one `Observe` applies. -/
theorem half_second_rule_eligible_at_negative_elapsed :
    0 ≤ threshold halfSecondRule ∧ threshold halfSecondRule ≠ 0 ∧
    (-500000000 : Int) < 0 ∧
    eligible halfSecondRule (-500000000) = true ∧
    (Observe (.nop ⟨0, none, [halfSecondRule], []⟩) (steady (-500000000)) 77).1 =
      .nop ⟨0, none, [halfSecondRule], [⟨"Ready", "True", 77, "Available", ""⟩]⟩ := by
  decide

/-- C9, amended: with non-negative thresholds and a negative elapsed time, a
rule is eligible exactly when its threshold is below one second and elapsed is
above `-1s` (both are then zero whole seconds); in particular no rule is
eligible at an elapsed of `-1s` or less. -/
theorem eligible_negative_elapsed (rules : List ResourceConditionAfter) (since : Int)
    (hth : ∀ r ∈ rules, 0 ≤ threshold r) (hneg : since < 0) :
    ∀ r ∈ rules, (eligible r since = true ↔
      (threshold r < 1000000000 ∧ -1000000000 < since)) := by
  intro r hr
  have h0 := hth r hr
  have a1 := one_le_truncSeconds (threshold r)
  have a2 := truncSeconds_nonneg (threshold r)
  have b1 := one_le_truncSeconds since
  have b2 := truncSeconds_nonneg since
  rw [eligible_iff]
  constructor
  · intro h
    constructor
    · by_contra hc
      have := a1.2 (by omega)
      have : ¬ (1 ≤ truncSeconds since) := fun h1 => by have := b1.1 h1; omega
      omega
    · by_contra hc
      have : ¬ (0 ≤ truncSeconds since) := fun h1 => by have := b2.1 h1; omega
      have := a2.2 (by omega)
      omega
  · intro h
    have h1 : ¬ (1 ≤ truncSeconds (threshold r)) := fun h1 => by have := a1.1 h1; omega
    have h2 := b2.2 h.2
    omega

/-- C9, amended, at the single rule "2s" and elapsed -500ms. -/
theorem eligible_negative_elapsed_witness :
    (eligible ⟨"2s", "Ready", "False"⟩ (-500000000) = true ↔
      (threshold ⟨"2s", "Ready", "False"⟩ < 1000000000 ∧ (-1000000000 : Int) < -500000000)) :=
  eligible_negative_elapsed [⟨"2s", "Ready", "False"⟩] (-500000000)
    (by decide) (by decide) ⟨"2s", "Ready", "False"⟩ (by simp)

/-- C10 fails as stated. A rule with threshold 16777216.999999999s has a
truncated threshold of 16777216s, between 0 and the truncated elapsed, at
elapsed 16777216.5s, yet nothing is selected: `Seconds` rounds the threshold up
to 16777217. And with two rules of threshold 7s, a clock reading 6.9s in the
first iteration of the loop and 7s in the second, index 1 is selected, which is
not the earliest index with the greatest threshold. -/
theorem selection_is_not_by_truncated_seconds :
    0 ≤ Int.tdiv (threshold lateRule) Second ∧
    Int.tdiv (threshold lateRule) Second ≤ Int.tdiv 16777216500000000 Second ∧
    selectIndex [lateRule] (steady 16777216500000000) = -1 ∧
    selectIndex sevenRules crossing = 1 := by
  decide

/-- C10, amended: on a resource without deletion marker, the inline selection
of `Observe` applies at most one rule in total, whatever the condition types
and whatever the clock reads in each iteration of the loop. With thresholds and
clock readings converted to whole seconds as the code does (`int(d.Seconds())`
on `float64`, which below `2^24` seconds in absolute value is the duration
truncated toward zero), nothing is selected (`l = -1`, the resource is returned
as it was) exactly when no rule has a whole-second threshold between 0 and the
whole-second reading of its own iteration; otherwise the selected index is the
earliest one whose whole-second threshold is the greatest among those rules,
its threshold is above `-1s`, and the only change to the resource is one
`SetConditions` with the condition of that rule. -/
theorem observe_selects_single_global_best (cr : NopResource) (since : Nat → Int) (now : Int)
    (hd : WasDeleted cr = false) :
    (selectIndex cr.ConditionAfter since = -1 ↔
      ∀ (j : Nat) (r : ResourceConditionAfter), cr.ConditionAfter[j]? = some r →
        ¬ (0 ≤ truncSeconds (threshold r) ∧
          truncSeconds (threshold r) ≤ truncSeconds (since j))) ∧
    (selectIndex cr.ConditionAfter since = -1 → (Observe (.nop cr) since now).1 = .nop cr) ∧
    (selectIndex cr.ConditionAfter since ≠ -1 →
      ∃ (k : Nat) (r : ResourceConditionAfter),
        selectIndex cr.ConditionAfter since = (k : Int) ∧ cr.ConditionAfter[k]? = some r ∧
        0 ≤ truncSeconds (threshold r) ∧
        truncSeconds (threshold r) ≤ truncSeconds (since k) ∧
        (∀ (j : Nat) (r' : ResourceConditionAfter), cr.ConditionAfter[j]? = some r' →
          0 ≤ truncSeconds (threshold r') →
          truncSeconds (threshold r') ≤ truncSeconds (since j) →
          truncSeconds (threshold r') ≤ truncSeconds (threshold r) ∧
            (j < k → truncSeconds (threshold r') < truncSeconds (threshold r))) ∧
        -1000000000 < threshold r ∧
        (Observe (.nop cr) since now).1 =
          .nop { cr with Conditions := (SetConditions cr.Conditions
            ⟨r.ConditionType, r.ConditionStatus, now, ReasonAvailable, ""⟩) }) ∧
    (∀ d : Int, -16777216000000000 < d → d < 16777216000000000 →
      truncSeconds d = Int.tdiv d Second) := by
  refine ⟨?_, ?_, ?_, truncSeconds_exact⟩
  · rcases selectIndex_spec cr.ConditionAfter since with
      ⟨h1, h2⟩ | ⟨k, r, hk, h1, h2, h3, h4, h5⟩
    · refine ⟨fun _ j r hj hc => ?_, fun _ => h1⟩
      have := h2 j r hj ((eligible_iff r (since j)).2 hc.2)
      omega
    · have hne : selectIndex cr.ConditionAfter since ≠ -1 := by rw [h1]; omega
      refine ⟨fun h => absurd h hne, fun h => ?_⟩
      exact absurd ⟨h3, (eligible_iff r (since k)).1 h2⟩ (h k r hk)
  · intro h1
    rw [Observe_nop cr since now hd, h1]
    simp [applySelected]
  · intro hne
    rcases selectIndex_spec cr.ConditionAfter since with
      ⟨h1, _⟩ | ⟨k, r, hk, h1, h2, h3, h4, h5⟩
    · exact absurd h1 hne
    · refine ⟨k, r, h1, hk, h3, (eligible_iff r (since k)).1 h2, ?_,
        (truncSeconds_nonneg _).1 h3, ?_⟩
      · intro j r' hj _ hle
        exact ⟨h4 j r' hj ((eligible_iff r' (since j)).2 hle),
          fun hjk => h5 j r' hjk hj ((eligible_iff r' (since j)).2 hle)⟩
      · rw [Observe_nop cr since now hd, h1, applySelected_index cr k r now hk]

/-- C10, amended, at the test resource after 8s: one index is selected and the
resource changes by the one condition of that rule. -/
theorem observe_selects_single_global_best_witness :
    WasDeleted testResource = false ∧
    ∃ (k : Nat) (r : ResourceConditionAfter),
      selectIndex testResource.ConditionAfter (steady 8000000000) = (k : Int) ∧
      testResource.ConditionAfter[k]? = some r ∧
      (Observe (.nop testResource) (steady 8000000000) 77).1 =
        .nop { testResource with Conditions := (SetConditions testResource.Conditions
          ⟨r.ConditionType, r.ConditionStatus, 77, ReasonAvailable, ""⟩) } :=
  ⟨by decide,
    match (observe_selects_single_global_best testResource (steady 8000000000) 77
      (by decide)).2.2.1 (by decide) with
    | ⟨k, r, h1, h2, _, _, _, _, h7⟩ => ⟨k, r, h1, h2, h7⟩⟩

end Nopresource
